import Mathlib

/-!
Verification development for the mipsim repository: a MIPS assembler and
single-step simulator.  The Rust sources under `src/` (lexer, parser,
instruction tables, sparse block memory, two-pass loader, CPU interpreter,
worker message loop) are shallowly embedded below as executable Lean
definitions, and the frozen specification claims are settled as theorems
about those definitions.

Conventions used throughout the embedding:
* `u32` values are `Nat` kept below `2 ^ 32`; signed 32-bit values are `Int`
  with explicit two's-complement conversions (`toI32`, `toU32`, `wrapI32`).
* Rust byte offsets into a `&str` are modelled as UTF-8 byte offsets of a
  `List Char` (`csize`, `byteLen`).
* Rust `Vec::push` plus `last_mut` mutation is modelled with a reversed
  accumulator list that is reversed once at the end.
* Imperative `while` loops are modelled as fuel recursion where the fuel is
  an explicit upper bound on the iteration count (each iteration consumes at
  least one element of the worked-on list, so a fuel equal to the list length
  is always sufficient; the fuel-exhaustion branches are unreachable).
* Rust panics (`unreachable!`, `unimplemented!`, slice-bound panics that the
  executed paths never hit) are modelled as distinguished error values.
-/

set_option maxRecDepth 40000
set_option maxHeartbeats 2000000

deriving instance DecidableEq for Except

namespace Mipsim

/-! ## Basic numeric helpers -/

/-- UTF-8 encoded size of a character, mirroring `char::len_utf8`. -/
def csize (c : Char) : Nat :=
  if c.val ≤ 127 then 1 else if c.val ≤ 2047 then 2 else if c.val ≤ 65535 then 3 else 4

/-- Total UTF-8 byte length of a character list. -/
def byteLen : List Char → Nat
  | [] => 0
  | c :: cs => csize c + byteLen cs

/-- Reinterpret the low 32 bits of a natural number as a signed 32-bit
integer (Rust `as i32` truncating cast / `transmute::<u32, i32>`). -/
def toI32 (n : Nat) : Int :=
  let m : Nat := n % 2 ^ 32
  if m < 2 ^ 31 then (m : Int) else (m : Int) - 2 ^ 32

/-- Two's-complement bit pattern of a signed integer as an unsigned 32-bit
value (Rust `transmute::<i32, u32>` / `as u32`). -/
def toU32 (x : Int) : Nat := (x % 2 ^ 32).toNat

/-- Wrap an integer into the signed 32-bit range (Rust `i32` wrapping
arithmetic). -/
def wrapI32 (x : Int) : Int := (x + 2 ^ 31) % 2 ^ 32 - 2 ^ 31

/-- Reinterpret the low 16 bits of a natural number as a signed 16-bit
integer (`to_signed_imm` in processor.rs: `transmute::<u16, i16>`). -/
def toI16 (n : Nat) : Int :=
  let m : Nat := n % 2 ^ 16
  if m < 2 ^ 15 then (m : Int) else (m : Int) - 2 ^ 16

/-- Two's-complement bit pattern of a signed integer as an unsigned 16-bit
value (Rust `transmute::<i16, u16>`). -/
def toU16 (x : Int) : Nat := (x % 2 ^ 16).toNat

/-- Rust `usize` cast of a possibly negative `isize`/`i64` value
(wraps modulo `2 ^ 64`). -/
def toNat64 (x : Int) : Nat := (x % 2 ^ 64).toNat

/-! ## Lexer (src/assembler/lexer.rs)

`Lexer::lex` walks the input with one character of lookahead, producing
`Lexeme`s that record byte ranges into the source.  `start`/`stop` are the
`slice.start`/`slice.end` byte offsets. -/

/-- `LexemeKind` from lexer.rs. -/
inductive LexemeKind where
  | punct
  | sect
  | label
  | inst
  | reg
  | imm
  | comment
  | white
deriving DecidableEq, Repr

/-- `Lexeme` from lexer.rs: a byte range (`slice`), owning line, and kind. -/
structure Lexeme where
  start : Nat
  stop : Nat
  line : Nat
  kind : LexemeKind
deriving DecidableEq, Repr

/-- `Lexer::take_while`: starting from byte position `pos`, consume
characters satisfying `p`, returning the new position and the rest. -/
def takeW (p : Char → Bool) : Nat → List Char → Nat × List Char
  | pos, [] => (pos, [])
  | pos, c :: cs => if p c then takeW p (pos + csize c) cs else (pos, c :: cs)

/-- The stateful closure passed to `take_while` for string immediates: it
consumes every character up to and including the first unescaped `"`. -/
def takeStringAux : Bool → Nat → List Char → Nat × List Char
  | _, pos, [] => (pos, [])
  | escape, pos, c :: cs =>
    if c = '\\' ∧ ¬escape then takeStringAux true (pos + csize c) cs
    else if c = '"' ∧ ¬escape then (pos + csize c, cs)
    else takeStringAux false (pos + csize c) cs

/-- Rust `('a'..='f').contains(c) || ... || c.is_numeric()` hex-digit test
used by the lexer's hexadecimal scanning. -/
def isHexScanChar (c : Char) : Bool :=
  c.isDigit || ('a' ≤ c ∧ c ≤ 'f') || ('A' ≤ c ∧ c ≤ 'F')

/-- Numeric-immediate scanning: a leading `0` followed by `x` switches to
hexadecimal digit scanning, otherwise decimal digits are consumed.  `c` is
the already-consumed first digit and `p1` the position after it. -/
def lexNum (c : Char) (p1 : Nat) (cs : List Char) : Nat × List Char :=
  match cs with
  | x :: cs2 =>
    if c = '0' ∧ x = 'x' then takeW isHexScanChar (p1 + csize x) cs2
    else takeW Char.isDigit p1 (x :: cs2)
  | [] => (p1, [])

/-- `Lexer::append_or_add_lexeme`: extend the most recent lexeme when it has
the same kind, otherwise push a new one.  The accumulator is kept in
reverse order (most recent lexeme first). -/
def appendOrAdd (acc : List Lexeme) (idx stop line : Nat) (kind : LexemeKind) : List Lexeme :=
  match acc with
  | l :: rest =>
    if l.kind = kind then { l with stop := stop } :: rest
    else ⟨idx, stop, line, kind⟩ :: l :: rest
  | [] => [⟨idx, stop, line, kind⟩]

/-- Does the next character (one-character lookahead, `peek_is`) satisfy
`p`? -/
def headSat (cs : List Char) (p : Char → Bool) : Bool :=
  match cs with
  | c :: _ => p c
  | [] => false

/-- The main loop of `Lexer::lex`.  `fuel` bounds the number of loop
iterations; every iteration consumes at least the head character, so a fuel
of the input length is always sufficient and the fuel-exhaustion branch is
unreachable.  `pos` is the current byte offset, `line` the 0-based line
counter, `flag` the `line_has_inst` flag, and `acc` the reversed lexeme
accumulator. -/
def lexLoop (ws cm : Bool) : Nat → Nat → Nat → Bool → List Lexeme → List Char → List Lexeme
  | _, _, _, _, acc, [] => acc.reverse
  | 0, _, _, _, acc, _ :: _ => acc.reverse
  | fuel + 1, pos, line, flag, acc, c :: cs =>
    let p1 := pos + csize c
    if c = ';' ∨ c = '#' then
      let r := takeW (fun x => x ≠ '\n') p1 cs
      lexLoop ws cm fuel r.1 line flag
        (if cm then ⟨pos, r.1, line, .comment⟩ :: acc else acc) r.2
    else if c = '.' ∧ headSat cs Char.isAlpha then
      let r := takeW Char.isAlpha p1 cs
      lexLoop ws cm fuel r.1 line flag (⟨pos, r.1, line, .sect⟩ :: acc) r.2
    else if c = '$' then
      let r := takeW Char.isAlphanum p1 cs
      lexLoop ws cm fuel r.1 line flag (⟨pos, r.1, line, .reg⟩ :: acc) r.2
    else if c.isAlpha then
      let r := takeW (fun x => x = '_' ∨ x.isAlphanum) p1 cs
      match r.2 with
      | c2 :: cs2 =>
        if c2 = ':' then
          lexLoop ws cm fuel (r.1 + csize c2) line flag
            (⟨pos, r.1 + csize c2, line, .label⟩ :: acc) cs2
        else if flag then
          lexLoop ws cm fuel r.1 line flag (⟨pos, r.1, line, .label⟩ :: acc) (c2 :: cs2)
        else
          lexLoop ws cm fuel r.1 line true (⟨pos, r.1, line, .inst⟩ :: acc) (c2 :: cs2)
      | [] =>
        if flag then lexLoop ws cm fuel r.1 line flag (⟨pos, r.1, line, .label⟩ :: acc) []
        else lexLoop ws cm fuel r.1 line true (⟨pos, r.1, line, .inst⟩ :: acc) []
    else if c = '-' ∧ headSat cs Char.isDigit then
      let r := takeW Char.isDigit p1 cs
      lexLoop ws cm fuel r.1 line flag (⟨pos, r.1, line, .imm⟩ :: acc) r.2
    else if c.isDigit then
      let r := lexNum c p1 cs
      lexLoop ws cm fuel r.1 line flag (⟨pos, r.1, line, .imm⟩ :: acc) r.2
    else if c = '"' then
      let r := takeStringAux false p1 cs
      lexLoop ws cm fuel r.1 line flag (⟨pos, r.1, line, .imm⟩ :: acc) r.2
    else if c.isWhitespace then
      lexLoop ws cm fuel p1 (if c = '\n' then line + 1 else line)
        (if c = '\n' then false else flag)
        (if ws then appendOrAdd acc pos p1 line .white else acc) cs
    else
      lexLoop ws cm fuel p1 line flag (appendOrAdd acc pos p1 line .punct) cs

/-- `Lexer::lex` with the `whitespace` (`ws`) and `comments` (`cm`)
options. -/
def lex (ws cm : Bool) (input : List Char) : List Lexeme :=
  lexLoop ws cm input.length 0 0 false [] input

/-! ### Coverage predicates for the lexeme stream -/

/-- The reversed accumulator `acc` tiles the byte range `[0, p)` exactly:
the head lexeme ends at `p`, each lexeme starts where the previous one ends,
and the oldest lexeme starts at 0. -/
def RevCovers : Nat → List Lexeme → Prop
  | p, [] => p = 0
  | p, l :: rest => l.stop = p ∧ l.start ≤ l.stop ∧ RevCovers l.start rest

/-- The reversed accumulator `acc` is an ordered, disjoint chain of ranges
below `p` (gaps allowed). -/
def RevChainLe : Nat → List Lexeme → Prop
  | _, [] => True
  | p, l :: rest => l.stop ≤ p ∧ l.start ≤ l.stop ∧ RevChainLe l.start rest

/-- Forward version of `RevCovers`: the lexemes tile `[a, b)` exactly in
order, with no gaps and no overlaps. -/
def Covers : Nat → List Lexeme → Nat → Prop
  | a, [], b => a = b
  | a, l :: ls, b => l.start = a ∧ l.start ≤ l.stop ∧ Covers l.stop ls b

/-- Forward version of `RevChainLe`: the lexemes form an ordered disjoint
chain of byte ranges inside `[a, b]`. -/
def ChainLe : Nat → List Lexeme → Nat → Prop
  | a, [], b => a ≤ b
  | a, l :: ls, b => a ≤ l.start ∧ l.start ≤ l.stop ∧ ChainLe l.stop ls b

/-- The characters of `cs` (whose first character sits at byte offset `o`)
whose byte offsets fall inside `[a, b)` — the slice of the input a byte
range denotes. -/
def extractFrom : Nat → List Char → Nat → Nat → List Char
  | _, [], _, _ => []
  | o, c :: cs, a, b =>
    if a ≤ o ∧ o < b then c :: extractFrom (o + csize c) cs a b
    else extractFrom (o + csize c) cs a b

/-! ## Instruction tables (src/assembler/inst.rs)

The GUI-only fields (`name`, `desc`) are omitted; `mnemonic`, encoding type,
argument slots, `opcode` and `func` are kept verbatim. -/

/-- `InstType`: R, I, load/store-style I, J. -/
inductive InstType where
  | r
  | i
  | ils
  | j
deriving DecidableEq, Repr

/-- `InstArg`.  The source variant `None` is called `noArg` here. -/
inductive InstArg where
  | rs
  | rt
  | rd
  | shamt
  | simm
  | uimm
  | addr
  | word
  | noArg
deriving DecidableEq, Repr

/-- `Inst`: one row of the real-instruction table. -/
structure Inst where
  mnemonic : String
  ty : InstType
  args : List InstArg
  opcode : Nat
  func : Nat
deriving DecidableEq, Repr

/-- `PseudoInst`: one row of the pseudo-instruction table. -/
structure PseudoInst where
  mnemonic : String
  args : List InstArg
deriving DecidableEq, Repr

/-- The `INSTRUCTIONS` table, in source order.  Note the `subu` row carries
`opcode 0x23 / func 0x00` exactly as written in the source. -/
def INSTRUCTIONS : List Inst := [
  ⟨"add",    .r,   [.rd, .rs, .rt],    0x00, 0x20⟩,
  ⟨"addi",   .i,   [.rt, .rs, .simm],  0x08, 0x00⟩,
  ⟨"addiu",  .i,   [.rt, .rs, .uimm],  0x09, 0x00⟩,
  ⟨"addu",   .r,   [.rd, .rs, .rt],    0x00, 0x21⟩,
  ⟨"and",    .r,   [.rd, .rs, .rt],    0x00, 0x24⟩,
  ⟨"andi",   .i,   [.rt, .rs, .simm],  0x0c, 0x00⟩,
  ⟨"lui",    .i,   [.rt, .uimm, .noArg], 0x0f, 0x00⟩,
  ⟨"nor",    .r,   [.rs, .rt, .rd],    0x00, 0x27⟩,
  ⟨"or",     .r,   [.rd, .rs, .rt],    0x00, 0x25⟩,
  ⟨"ori",    .i,   [.rt, .rs, .simm],  0x0d, 0x00⟩,
  ⟨"slt",    .r,   [.rd, .rs, .rt],    0x00, 0x2a⟩,
  ⟨"slti",   .i,   [.rt, .rs, .simm],  0x0a, 0x00⟩,
  ⟨"sltiu",  .i,   [.rt, .rs, .uimm],  0x0b, 0x00⟩,
  ⟨"sltu",   .r,   [.rd, .rs, .rt],    0x00, 0x2b⟩,
  ⟨"sll",    .r,   [.rd, .rt, .shamt], 0x00, 0x00⟩,
  ⟨"sra",    .r,   [.rd, .rt, .shamt], 0x00, 0x03⟩,
  ⟨"srl",    .r,   [.rd, .rt, .shamt], 0x00, 0x02⟩,
  ⟨"sub",    .r,   [.rd, .rs, .rt],    0x00, 0x22⟩,
  ⟨"subu",   .r,   [.rd, .rs, .rt],    0x23, 0x00⟩,
  ⟨"xor",    .r,   [.rd, .rs, .rt],    0x00, 0x26⟩,
  ⟨"lbu",    .ils, [.rt, .simm, .rs],  0x24, 0x00⟩,
  ⟨"lhu",    .ils, [.rt, .simm, .rs],  0x25, 0x00⟩,
  ⟨"lw",     .ils, [.rt, .simm, .rs],  0x23, 0x00⟩,
  ⟨"sb",     .ils, [.rt, .simm, .rs],  0x28, 0x00⟩,
  ⟨"sh",     .ils, [.rt, .simm, .rs],  0x29, 0x00⟩,
  ⟨"sw",     .ils, [.rt, .simm, .rs],  0x2b, 0x00⟩,
  ⟨"beq",    .i,   [.rt, .rs, .simm],  0x04, 0x00⟩,
  ⟨"bne",    .i,   [.rt, .rs, .simm],  0x05, 0x00⟩,
  ⟨"j",      .j,   [.addr, .noArg, .noArg], 0x02, 0x00⟩,
  ⟨"jal",    .j,   [.addr, .noArg, .noArg], 0x03, 0x00⟩,
  ⟨"jr",     .r,   [.rs, .noArg, .noArg],   0x00, 0x08⟩,
  ⟨"syscall", .r,  [.noArg, .noArg, .noArg], 0x00, 0x0c⟩]

/-- The `PSEUDO_INSTRUCTIONS` table. -/
def PSEUDO_INSTRUCTIONS : List PseudoInst := [
  ⟨"la",   [.rt, .addr, .noArg]⟩,
  ⟨"nop",  [.noArg, .noArg, .noArg]⟩,
  ⟨"li",   [.rt, .word, .noArg]⟩,
  ⟨"move", [.rt, .rs, .noArg]⟩]

/-- `INST_MNEMONICS` lookup (mnemonics are unique, so the first match is
the map entry). -/
def findInst (s : String) : Option Inst :=
  INSTRUCTIONS.find? (fun i => i.mnemonic == s)

/-- `PSEUDO_INST_MNEMONICS` lookup. -/
def findPseudo (s : String) : Option PseudoInst :=
  PSEUDO_INSTRUCTIONS.find? (fun i => i.mnemonic == s)

/-- `INST_OPCODE_FUNC` lookup: the `HashMap` is built by inserting the rows
in table order, so for duplicate `(opcode, func)` keys the later row wins —
hence `getLast?` of the matching rows. -/
def lookupOpcodeFunc (op fn : Nat) : Option Inst :=
  (INSTRUCTIONS.filter (fun i => i.opcode == op && i.func == fn)).getLast?

/-- `INST_ADDR_RELATIVE`: mnemonics whose label operands are encoded
relative to the instruction address. -/
def INST_ADDR_RELATIVE : List String := ["beq", "bne"]

/-! ## Registers (src/simulator/registers.rs)

The register file is an array of 32 signed 32-bit words; here it is a
`List Nat` of unsigned 32-bit bit patterns with explicit signed views. -/

/-- Address-space constants from src/simulator/memory.rs. -/
def BLOCK_SIZE : Nat := 256

def ADDR_MEM_MAX : Nat := 0x100000000

def ADDR_STACK_TOP : Nat := 0x80000000

def ADDR_HEAP : Nat := 0x10008000

def ADDR_STATIC : Nat := 0x10000000

def ADDR_TEXT : Nat := 0x00400000

/-- `Registers::index`: well-known register names, falling back to parsing
the name as a bare numeric index (`s.parse::<usize>()`). -/
def regNameIndex (s : String) : Option Nat :=
  match s with
  | "zero" => some 0
  | "at" => some 1
  | "v0" => some 2 | "v1" => some 3
  | "a0" => some 4 | "a1" => some 5 | "a2" => some 6 | "a3" => some 7
  | "t0" => some 8 | "t1" => some 9 | "t2" => some 10 | "t3" => some 11
  | "t4" => some 12 | "t5" => some 13 | "t6" => some 14 | "t7" => some 15
  | "s0" => some 16 | "s1" => some 17 | "s2" => some 18 | "s3" => some 19
  | "s4" => some 20 | "s5" => some 21 | "s6" => some 22 | "s7" => some 23
  | "t8" => some 24 | "t9" => some 25
  | "k0" => some 26 | "k1" => some 27
  | "gp" => some 28
  | "sp" => some 29
  | "fp" => some 30
  | "ra" => some 31
  | _ => none

/-- `Registers::default`: all zero except `gp` and `sp`. -/
def regsDefault : List Nat :=
  ((List.replicate 32 0).set 28 ADDR_HEAP).set 29 ADDR_STACK_TOP

/-- `Registers::get_u32`. -/
def getU32 (regs : List Nat) (i : Nat) : Nat := regs.getD i 0

/-- `Registers::get_i32`. -/
def getI32 (regs : List Nat) (i : Nat) : Int := toI32 (getU32 regs i)

/-- `Registers::set_u32` (stores the 32-bit pattern). -/
def setU32 (regs : List Nat) (i v : Nat) : List Nat := regs.set i (v % 2 ^ 32)

/-- `Registers::set_i32`. -/
def setI32 (regs : List Nat) (i : Nat) (v : Int) : List Nat := regs.set i (toU32 v)

/-! ## Parser (src/assembler/parser.rs)

The parser re-lexes the source (whitespace and comments disabled) and walks
the lexeme stream with a cursor.  Here the cursor state is the remaining
token list, each token pairing a lexeme's kind and line with the source
slice its byte range denotes. -/

/-- A lexeme together with the source slice its byte range covers
(what `Parser::peek` yields). -/
structure Tok where
  kind : LexemeKind
  line : Nat
  text : String
deriving DecidableEq, Repr

/-- The token stream seen by `Parser::new(source)`. -/
def tokens (src : String) : List Tok :=
  (lex false false src.toList).map fun l =>
    ⟨l.kind, l.line, (extractFrom 0 src.toList l.start l.stop).asString⟩

/-- `ParseError`.  Payloads are reduced to what the claims inspect.  The
extra `wordArgUnsupported` value models the missing `InstArg::Word` arm of
the parser's argument `match` (the source match is non-exhaustive), and
`internalPanic` models the parser's `panic!`/`expect` paths. -/
inductive PError where
  | unknownSectDirective (s : String)
  | expectedLexeme (k : LexemeKind)
  | unexpectedLexeme
  | parseIntError
  | parseStringError
  | unterminatedString
  | unknownInstruction (s : String)
  | expectedPunct (s : String)
  | expectedImm
  | unknownRegister
  | wordArgUnsupported
  | internalPanic
deriving DecidableEq, Repr

/-- `NodeImm`: a literal half word, a literal address, or an unresolved
label reference. -/
inductive NodeImm where
  | half (v : Nat)
  | addrImm (v : Nat)
  | labelRef (s : String)
deriving DecidableEq, Repr

/-- `Section`. -/
inductive SectionName where
  | text
  | data
deriving DecidableEq, Repr

/-- `Directive`. -/
inductive Directive where
  | byte (v : Nat)
  | half (v : Nat)
  | word (v : Nat)
  | asciiz (s : String)
  | stringz (s : String)
  | align (v : Nat)
deriving DecidableEq, Repr

/-- `NodeKind`. -/
inductive NodeKind where
  | instR (inst : Inst) (rs rt rd shamt : Nat)
  | instI (inst : Inst) (rs rt : Nat) (imm : NodeImm)
  | instJ (inst : Inst) (addr : NodeImm)
  | instPseudo (inst : PseudoInst) (rs rt rd : Nat) (addr : NodeImm)
  | labelDef (s : String)
  | sectionNode (s : SectionName)
  | directive (d : Directive)
deriving DecidableEq, Repr

/-- `Node`: a node plus its originating lexeme's line number. -/
structure Node where
  kind : NodeKind
  line : Nat
deriving DecidableEq, Repr

/-- Value of one char as a digit in the given radix (mirrors what
`from_str_radix` accepts). -/
def digitVal (radix : Nat) (c : Char) : Option Nat :=
  let v : Option Nat :=
    if '0' ≤ c ∧ c ≤ '9' then some (c.toNat - '0'.toNat)
    else if 'a' ≤ c ∧ c ≤ 'z' then some (c.toNat - 'a'.toNat + 10)
    else if 'A' ≤ c ∧ c ≤ 'Z' then some (c.toNat - 'A'.toNat + 10)
    else none
  match v with
  | some d => if d < radix then some d else none
  | none => none

/-- Accumulate the value of a digit string; `none` on any non-digit. -/
def digitsVal (radix : Nat) : List Char → Nat → Option Nat
  | [], acc => some acc
  | c :: cs, acc =>
    match digitVal radix c with
    | some d => digitsVal radix cs (acc * radix + d)
    | none => none

/-- Rust unsigned integer parsing (`str::parse` / `from_str_radix`): an
optional `+` sign, a nonempty digit run, and a range check (`none` models
every `ParseIntError`).  A `-` sign is rejected for unsigned types. -/
def parseUIntRadix (radix bound : Nat) (s : List Char) : Option Nat :=
  let body := match s with
    | '+' :: rest => rest
    | rest => rest
  match body with
  | [] => none
  | _ =>
    match digitsVal radix body 0 with
    | some v => if v < bound then some v else none
    | none => none

/-- Rust signed decimal integer parsing (`str::parse::<i16>` /
`::<i32>`): optional sign, nonempty digits, range `[-bound, bound)`. -/
def parseSIntDec (bound : Nat) (s : List Char) : Option Int :=
  match s with
  | '-' :: rest =>
    match rest with
    | [] => none
    | _ =>
      match digitsVal 10 rest 0 with
      | some v => if v ≤ bound then some (-(v : Int)) else none
      | none => none
  | '+' :: rest =>
    match rest with
    | [] => none
    | _ =>
      match digitsVal 10 rest 0 with
      | some v => if v < bound then some (v : Int) else none
      | none => none
  | rest =>
    match rest with
    | [] => none
    | _ =>
      match digitsVal 10 rest 0 with
      | some v => if v < bound then some (v : Int) else none
      | none => none

/-- `Parser::next_expect_kind`. -/
def nextExpectKind (k : LexemeKind) : List Tok → Except PError (Tok × List Tok)
  | t :: ts => if t.kind = k then .ok (t, ts) else .error (.expectedLexeme k)
  | [] => .error (.expectedLexeme k)

/-- `Parser::expect_punct`. -/
def expectPunct (p : String) (ts : List Tok) : Except PError (List Tok) := do
  let (t, ts) ← nextExpectKind .punct ts
  if t.text = p then .ok ts else .error (.expectedPunct p)

/-- `Parser::parse_u8`: `0x`-prefixed hex or decimal. -/
def parseU8T (ts : List Tok) : Except PError (Nat × List Tok) := do
  let (t, ts) ← nextExpectKind .imm ts
  match t.text.toList with
  | '0' :: 'x' :: rest =>
    match parseUIntRadix 16 (2 ^ 8) rest with
    | some v => .ok (v, ts)
    | none => .error .parseIntError
  | s =>
    match parseUIntRadix 10 (2 ^ 8) s with
    | some v => .ok (v, ts)
    | none => .error .parseIntError

/-- `Parser::parse_u16`: `0x`-prefixed hex or decimal. -/
def parseU16T (ts : List Tok) : Except PError (Nat × List Tok) := do
  let (t, ts) ← nextExpectKind .imm ts
  match t.text.toList with
  | '0' :: 'x' :: rest =>
    match parseUIntRadix 16 (2 ^ 16) rest with
    | some v => .ok (v, ts)
    | none => .error .parseIntError
  | s =>
    match parseUIntRadix 10 (2 ^ 16) s with
    | some v => .ok (v, ts)
    | none => .error .parseIntError

/-- `Parser::parse_u32`: `0x`-prefixed hex or decimal. -/
def parseU32T (ts : List Tok) : Except PError (Nat × List Tok) := do
  let (t, ts) ← nextExpectKind .imm ts
  match t.text.toList with
  | '0' :: 'x' :: rest =>
    match parseUIntRadix 16 (2 ^ 32) rest with
    | some v => .ok (v, ts)
    | none => .error .parseIntError
  | s =>
    match parseUIntRadix 10 (2 ^ 32) s with
    | some v => .ok (v, ts)
    | none => .error .parseIntError

/-- `Parser::parse_i16`: plain `str::parse::<i16>` — decimal only, no
hexadecimal prefix handling.  Returns the `u16` bit pattern
(`transmute::<i16, u16>`). -/
def parseI16T (ts : List Tok) : Except PError (Nat × List Tok) := do
  let (t, ts) ← nextExpectKind .imm ts
  match parseSIntDec (2 ^ 15) t.text.toList with
  | some v => .ok (toU16 v, ts)
  | none => .error .parseIntError

/-- Body of `Parser::parse_string` after the opening quote: unescape
`\"`- and `\n`-style escapes until the first unescaped quote. -/
def stringBody : Bool → List Char → List Char → Option String
  | _, _, [] => none
  | escape, acc, c :: cs =>
    if c = '\\' ∧ ¬escape then stringBody true acc cs
    else if c = '"' ∧ ¬escape then some acc.reverse.asString
    else if c = 'n' ∧ escape then stringBody false ('\n' :: acc) cs
    else stringBody false (c :: acc) cs

/-- `Parser::parse_string`. -/
def parseStringT (ts : List Tok) : Except PError (String × List Tok) := do
  let (t, ts) ← nextExpectKind .imm ts
  match t.text.toList with
  | '"' :: rest =>
    match stringBody false [] rest with
    | some s => .ok (s, ts)
    | none => .error .unterminatedString
  | _ => .error .parseStringError

/-- `Parser::parse_register`: strip the `$`, resolve the name (the
`as u8` cast truncates modulo 256). -/
def parseRegisterT (ts : List Tok) : Except PError (Nat × List Tok) := do
  let (t, ts) ← nextExpectKind .reg ts
  match t.text.toList with
  | '$' :: rest =>
    match regNameIndex rest.asString with
    | some i => .ok (i % 256, ts)
    | none =>
      match parseUIntRadix 10 (2 ^ 64) rest.asString.toList with
      | some i => .ok (i % 256, ts)
      | none => .error .unknownRegister
  | _ => .error .internalPanic

/-- The mutable argument variables of the instruction-parsing loop
(`rs`, `rt`, `rd`, `shamt`, `imm`). -/
structure ArgAcc where
  rs : Nat
  rt : Nat
  rd : Nat
  shamt : Nat
  imm : NodeImm
deriving DecidableEq, Repr

/-- One argument slot of the parser's per-slot `match arg`.  The source
match has no arm for `InstArg::Word`, which is modelled as the error
`wordArgUnsupported`. -/
def parseOneArg (a : InstArg) (acc : ArgAcc) (ts : List Tok) :
    Except PError (ArgAcc × List Tok) :=
  match a with
  | .noArg => .ok (acc, ts)
  | .rs => do
    let (v, ts) ← parseRegisterT ts
    .ok ({ acc with rs := v }, ts)
  | .rt => do
    let (v, ts) ← parseRegisterT ts
    .ok ({ acc with rt := v }, ts)
  | .rd => do
    let (v, ts) ← parseRegisterT ts
    .ok ({ acc with rd := v }, ts)
  | .shamt => do
    let (v, ts) ← parseU8T ts
    .ok ({ acc with shamt := v }, ts)
  | .simm =>
    match ts with
    | t :: ts' =>
      if t.kind = .imm then do
        let (v, ts) ← parseI16T ts
        .ok ({ acc with imm := .half v }, ts)
      else if t.kind = .label then .ok ({ acc with imm := .labelRef t.text }, ts')
      else .error .expectedImm
    | [] => .error .expectedImm
  | .uimm =>
    match ts with
    | t :: ts' =>
      if t.kind = .imm then do
        let (v, ts) ← parseU16T ts
        .ok ({ acc with imm := .half v }, ts)
      else if t.kind = .label then .ok ({ acc with imm := .labelRef t.text }, ts')
      else .error .expectedImm
    | [] => .error .expectedImm
  | .addr =>
    match ts with
    | t :: ts' =>
      if t.kind = .imm then do
        let (v, ts) ← parseU32T ts
        .ok ({ acc with imm := .addrImm v }, ts)
      else if t.kind = .label then .ok ({ acc with imm := .labelRef t.text }, ts')
      else .error .expectedImm
    | [] => .error .expectedImm
  | .word => .error .wordArgUnsupported

/-- The argument-slot loop: per-slot punctuation (comma, or the
load/store `(`/`)` form), argument parsing, early exit on a `None` slot. -/
def parseArgs (tyIls : Bool) : List InstArg → Nat → ArgAcc → List Tok →
    Except PError (ArgAcc × List Tok)
  | [], _, acc, ts => .ok (acc, ts)
  | a :: more, i, acc, ts =>
    if a = .noArg then .ok (acc, ts)
    else do
      let ts ←
        if tyIls then
          if i = 1 then expectPunct "," ts
          else if i = 2 then expectPunct "(" ts
          else .ok ts
        else if 0 < i then expectPunct "," ts
        else .ok ts
      let (acc, ts) ← parseOneArg a acc ts
      let ts ← if tyIls ∧ i = 2 then expectPunct ")" ts else .ok ts
      parseArgs tyIls more (i + 1) acc ts

/-- The main loop of `Parser::parse`.  `fuel` bounds the number of
statements; every iteration consumes at least its leading token, so a fuel
of the token-list length always suffices and the exhaustion branch is
unreachable. -/
def parseLoop : Nat → List Tok → Except PError (List Node)
  | _, [] => .ok []
  | 0, _ :: _ => .error .internalPanic
  | fuel + 1, t :: ts =>
    match t.kind with
    | .sect =>
      let name := t.text.drop 1
      if name = "data" then do
        let rest ← parseLoop fuel ts
        .ok (⟨.sectionNode .data, t.line⟩ :: rest)
      else if name = "text" then do
        let rest ← parseLoop fuel ts
        .ok (⟨.sectionNode .text, t.line⟩ :: rest)
      else if name = "byte" then do
        let (v, ts) ← parseU8T ts
        let rest ← parseLoop fuel ts
        .ok (⟨.directive (.byte v), t.line⟩ :: rest)
      else if name = "half" then do
        let (v, ts) ← parseU16T ts
        let rest ← parseLoop fuel ts
        .ok (⟨.directive (.half v), t.line⟩ :: rest)
      else if name = "word" then do
        let (v, ts) ← parseU32T ts
        let rest ← parseLoop fuel ts
        .ok (⟨.directive (.word v), t.line⟩ :: rest)
      else if name = "asciiz" then do
        let (s, ts) ← parseStringT ts
        let rest ← parseLoop fuel ts
        .ok (⟨.directive (.asciiz s), t.line⟩ :: rest)
      else if name = "stringz" then do
        let (s, ts) ← parseStringT ts
        let rest ← parseLoop fuel ts
        .ok (⟨.directive (.stringz s), t.line⟩ :: rest)
      else if name = "align" then do
        let (v, ts) ← parseU8T ts
        let rest ← parseLoop fuel ts
        .ok (⟨.directive (.align v), t.line⟩ :: rest)
      else .error (.unknownSectDirective name)
    | .label =>
      let cs := t.text.toList
      if cs.getLast? = some ':' then do
        let rest ← parseLoop fuel ts
        .ok (⟨.labelDef cs.dropLast.asString, t.line⟩ :: rest)
      else .error .internalPanic
    | .inst =>
      match findInst t.text, findPseudo t.text with
      | none, none => .error (.unknownInstruction t.text)
      | oInst, oPseudo =>
        let tyIls := match oInst with
          | some i => i.ty = .ils
          | none => false
        let args := match oInst with
          | some i => i.args
          | none => (oPseudo.getD ⟨"", []⟩).args
        do
          let (acc, ts) ← parseArgs tyIls args 0 ⟨0, 0, 0, 0, .half 0⟩ ts
          let kind := match oInst with
            | some i =>
              match i.ty with
              | .r => NodeKind.instR i acc.rs acc.rt acc.rd acc.shamt
              | .i => NodeKind.instI i acc.rs acc.rt acc.imm
              | .ils => NodeKind.instI i acc.rs acc.rt acc.imm
              | .j => NodeKind.instJ i acc.imm
            | none => NodeKind.instPseudo (oPseudo.getD ⟨"", []⟩) acc.rs acc.rt acc.rd acc.imm
          let rest ← parseLoop fuel ts
          .ok (⟨kind, t.line⟩ :: rest)
    | _ => .error .unexpectedLexeme

/-- `Parser::new(source).parse()`. -/
def parseProgram (src : String) : Except PError (List Node) :=
  let ts := tokens src
  parseLoop ts.length ts

/-! ## Memory (src/simulator/memory.rs)

A sparse byte store: a map from block-aligned base addresses to fixed-size
256-byte blocks, plus a cursor.  The `BTreeMap` is modelled as an
association list (the code never iterates the map, so ordering is
irrelevant).  Bytes are `Nat` values below 256. -/

/-- The block map plus position cursor. -/
structure Memory where
  tree : List (Nat × List Nat)
  pos : Nat
deriving DecidableEq, Repr

/-- `Memory::new` / `Memory::default`. -/
def memNew : Memory := ⟨[], 0⟩

/-- `Memory::reset`. -/
def memReset (_ : Memory) : Memory := ⟨[], 0⟩

/-- `Memory::set_pos` (also `Seek` with `SeekFrom::Start`). -/
def setPos (m : Memory) (p : Nat) : Memory := { m with pos := p }

/-- `Memory::align`. -/
def memAlign (m : Memory) (bytes : Nat) : Memory :=
  let rem := m.pos % bytes
  if rem ≠ 0 then { m with pos := m.pos + (bytes - rem) } else m

/-- `BTreeMap::get`. -/
def lookupTree : List (Nat × List Nat) → Nat → Option (List Nat)
  | [], _ => none
  | (k, b) :: t, key => if k = key then some b else lookupTree t key

/-- `BTreeMap` insertion / `entry().or_insert` followed by mutation. -/
def insertTree : List (Nat × List Nat) → Nat → List Nat → List (Nat × List Nat)
  | [], key, b => [(key, b)]
  | (k, b') :: t, key, b => if k = key then (key, b) :: t else (k, b') :: insertTree t key b

/-- The `while` loop of `Memory::block_addrs`: keep appending the next
block base while it still intersects the requested range.  `fuel` bounds
the iteration count (the loop runs at most `size` extra iterations). -/
def blockAddrsGo : Nat → Nat → Nat → List Nat
  | 0, _, _ => []
  | fuel + 1, limit, a =>
    if a + BLOCK_SIZE < limit then (a + BLOCK_SIZE) :: blockAddrsGo fuel limit (a + BLOCK_SIZE)
    else []

/-- `Memory::block_addrs`: all block base addresses intersecting
`[start, start + size)`. -/
def blockAddrs (start size : Nat) : List Nat :=
  let first := start / BLOCK_SIZE * BLOCK_SIZE
  first :: blockAddrsGo (size + 1) (start + size) first

/-- Overwrite `buf` starting at index `at'` with `repl` (the
`split_at_mut` / `copy_from_slice` pattern). -/
def setSeg (buf : List Nat) (at' : Nat) (repl : List Nat) : List Nat :=
  buf.take at' ++ repl ++ buf.drop (at' + repl.length)

/-- The per-block loop of `Memory::read_view`.  For an allocated block the
copied slice is `block[local .. min(local + len - read, BLOCK_SIZE)]`; for
an unallocated block `min(len - read, BLOCK_SIZE)` zero bytes are
synthesized (exactly as written in the source, including the missing
block-boundary clamp in the unallocated branch). -/
def readViewGo (tree : List (Nat × List Nat)) (addr len : Nat) :
    List Nat → Nat → List Nat → List Nat
  | [], _, buf => buf
  | base :: bases, read, buf =>
    let read := if base > addr ∧ read < base - addr then base - addr else read
    let localAddr := addr - base
    match lookupTree tree base with
    | some block =>
      let slice := (block.take (min (localAddr + (len - read)) BLOCK_SIZE)).drop localAddr
      readViewGo tree addr len bases (read + slice.length) (setSeg buf read slice)
    | none =>
      let n := min (len - read) BLOCK_SIZE
      readViewGo tree addr len bases (read + n) (setSeg buf read (List.replicate n 0))

/-- `Memory::read_view`: fill `buf` from address `addr` without allocating
(the memory itself is untouched; only the filled buffer is returned). -/
def readViewBuf (m : Memory) (addr : Nat) (buf : List Nat) : List Nat :=
  readViewGo m.tree addr buf.length (blockAddrs addr buf.length) 0 buf

/-- The per-block loop of `Write::write`: allocate-or-fetch each block and
copy the corresponding piece of `buf` into it. -/
def writeGo (addr len : Nat) (buf : List Nat) :
    List Nat → List (Nat × List Nat) → Nat → List (Nat × List Nat) × Nat
  | [], tree, written => (tree, written)
  | base :: bases, tree, written =>
    let block := (lookupTree tree base).getD (List.replicate BLOCK_SIZE 0)
    let startA := addr - base
    let endA := min (startA + (len - written)) BLOCK_SIZE
    let slice := (buf.drop written).take (endA - startA)
    let block' := setSeg block startA slice
    writeGo addr len buf bases (insertTree tree base block') (written + slice.length)

/-- `Write::write` for `Memory`: sequential write at the cursor, advancing
it by the number of bytes written. -/
def memWrite (m : Memory) (buf : List Nat) : Memory :=
  let r := writeGo m.pos buf.length buf (blockAddrs m.pos buf.length) m.tree 0
  ⟨r.1, m.pos + r.2⟩

/-- `Read::read` for `Memory` of `n` bytes: `read_view` at the cursor, then
advance the cursor.  (`read_view` always returns `Ok(len)`, so reads are
total.) -/
def memRead (m : Memory) (n : Nat) : List Nat × Memory :=
  (readViewBuf m m.pos (List.replicate n 0), { m with pos := m.pos + n })

/-- `read_u8`. -/
def memReadU8 (m : Memory) : Nat × Memory :=
  let r := memRead m 1
  (r.1.getD 0 0, r.2)

/-- `read_u16::<BE>`. -/
def memReadU16 (m : Memory) : Nat × Memory :=
  let r := memRead m 2
  (r.1.getD 0 0 * 2 ^ 8 + r.1.getD 1 0, r.2)

/-- `read_u32::<BE>`. -/
def memReadU32 (m : Memory) : Nat × Memory :=
  let r := memRead m 4
  (r.1.getD 0 0 * 2 ^ 24 + r.1.getD 1 0 * 2 ^ 16 + r.1.getD 2 0 * 2 ^ 8 + r.1.getD 3 0, r.2)

/-- `write_u8`. -/
def memWriteU8 (m : Memory) (v : Nat) : Memory := memWrite m [v % 2 ^ 8]

/-- `write_u16::<BE>`. -/
def memWriteU16 (m : Memory) (v : Nat) : Memory :=
  memWrite m [v / 2 ^ 8 % 2 ^ 8, v % 2 ^ 8]

/-- `write_u32::<BE>`. -/
def memWriteU32 (m : Memory) (v : Nat) : Memory :=
  memWrite m [v / 2 ^ 24 % 2 ^ 8, v / 2 ^ 16 % 2 ^ 8, v / 2 ^ 8 % 2 ^ 8, v % 2 ^ 8]

/-! ## Processor (src/simulator/processor.rs)

The processor owns the register file, memory, program counter, and the
`loaded`/`active` flags.  Because the Rust code mutates in place, `step`
returns the (possibly partially) updated state together with an optional
error, the I/O events sent on the app channel, and the remaining command
queue (syscall 5 receives its input line from the same channel the worker
reads commands from). -/

/-- `ExecError`, plus `panicked` modelling paths that panic in Rust
(`unreachable!`, the over-long syscall-4 string). -/
inductive ExecErrorM where
  | ioErr
  | ioRecvErr
  | intParseErr
  | panicked
deriving DecidableEq, Repr

/-- `ProcMessage`: commands from the app to the processor worker. -/
inductive ProcMessage where
  | resetMsg
  | loadMsg (body : String)
  | stepMsg
  | inputMsg (s : String)
deriving DecidableEq, Repr

/-- A program-output event (`AppMessage::Io`).  The UTF-8
decode-with-fallback of syscall 4 is not modelled; the raw bytes are
kept. -/
inductive OutMsg where
  | intOut (v : Int)
  | bytesOut (bs : List Nat)
deriving DecidableEq, Repr

/-- The `Processor` state. -/
structure ProcState where
  regs : List Nat
  mem : Memory
  pc : Nat
  loaded : Bool
  active : Bool
deriving DecidableEq, Repr

/-- `Processor::new`. -/
def procNew : ProcState := ⟨regsDefault, memNew, ADDR_TEXT, false, false⟩

/-- `Processor::reset`. -/
def procReset (p : ProcState) : ProcState :=
  ⟨regsDefault, memReset p.mem, ADDR_TEXT, false, false⟩

/-- `Processor::io_recv`: receive from the command channel until an `Io`
line arrives; `Step` messages are skipped, any other message (or channel
exhaustion) is an error.  Consumed messages are gone either way. -/
def ioRecv : List ProcMessage → Except Unit String × List ProcMessage
  | [] => (.error (), [])
  | .inputMsg s :: rest => (.ok s, rest)
  | .stepMsg :: rest => ioRecv rest
  | _ :: rest => (.error (), rest)

/-- Result of one `step` (or of a register/branch helper): optional error,
updated processor, emitted program output, remaining command queue. -/
structure StepRes where
  err : Option ExecErrorM
  proc : ProcState
  outputs : List OutMsg
  queue : List ProcMessage
deriving DecidableEq, Repr

/-- `Processor::call_rtype`: dispatch on the table entry's `func`.  Note
`sll`/`sra`/`srl` shift `rs` (not `rt`), and the (decode-unreachable)
`subu` arm writes `rt`, both exactly as in the source. -/
def callRtype (encoded : Nat) (inst : Inst) (p : ProcState) : Option ExecErrorM × ProcState :=
  let rs := encoded >>> 21 &&& 0x1f
  let rt := encoded >>> 16 &&& 0x1f
  let rd := encoded >>> 11 &&& 0x1f
  let shamt := encoded >>> 6 &&& 0x1f
  if inst.func = 0x20 then
    (none, { p with regs := setI32 p.regs rd (wrapI32 (getI32 p.regs rs + getI32 p.regs rt)),
                    pc := p.pc + 4 })
  else if inst.func = 0x21 then
    (none, { p with regs := setU32 p.regs rd ((getU32 p.regs rs + getU32 p.regs rt) % 2 ^ 32),
                    pc := p.pc + 4 })
  else if inst.func = 0x24 then
    (none, { p with regs := setU32 p.regs rd (getU32 p.regs rs &&& getU32 p.regs rt),
                    pc := p.pc + 4 })
  else if inst.func = 0x27 then
    (none, { p with regs := setU32 p.regs rd ((getU32 p.regs rs ||| getU32 p.regs rt) ^^^ (2 ^ 32 - 1)),
                    pc := p.pc + 4 })
  else if inst.func = 0x25 then
    (none, { p with regs := setU32 p.regs rd (getU32 p.regs rs ||| getU32 p.regs rt),
                    pc := p.pc + 4 })
  else if inst.func = 0x2a then
    (none, { p with regs := setI32 p.regs rd (if getI32 p.regs rs < getI32 p.regs rt then 1 else 0),
                    pc := p.pc + 4 })
  else if inst.func = 0x2b then
    (none, { p with regs := setU32 p.regs rd (if getU32 p.regs rs < getU32 p.regs rt then 1 else 0),
                    pc := p.pc + 4 })
  else if inst.func = 0x00 then
    (none, { p with regs := setU32 p.regs rd (getU32 p.regs rs <<< shamt % 2 ^ 32),
                    pc := p.pc + 4 })
  else if inst.func = 0x03 then
    (none, { p with regs := setI32 p.regs rd (Int.fdiv (getI32 p.regs rs) (2 ^ shamt)),
                    pc := p.pc + 4 })
  else if inst.func = 0x02 then
    (none, { p with regs := setU32 p.regs rd (getU32 p.regs rs >>> shamt),
                    pc := p.pc + 4 })
  else if inst.func = 0x22 then
    (none, { p with regs := setI32 p.regs rd (wrapI32 (getI32 p.regs rs - getI32 p.regs rt)),
                    pc := p.pc + 4 })
  else if inst.func = 0x23 then
    (none, { p with regs := setU32 p.regs rt ((getU32 p.regs rs + 2 ^ 32 - getU32 p.regs rt) % 2 ^ 32),
                    pc := p.pc + 4 })
  else if inst.func = 0x26 then
    (none, { p with regs := setU32 p.regs rd (getU32 p.regs rs ^^^ getU32 p.regs rt),
                    pc := p.pc + 4 })
  else if inst.func = 0x08 then
    (none, { p with pc := getU32 p.regs rs <<< 2 })
  else (some .panicked, p)

/-- `Processor::call_itype`: dispatch on the table entry's `opcode`.
Effective addresses use the `as i64` sum cast back to `usize`. -/
def callItype (encoded : Nat) (inst : Inst) (p : ProcState) : Option ExecErrorM × ProcState :=
  let rs := encoded >>> 21 &&& 0x1f
  let rt := encoded >>> 16 &&& 0x1f
  let imm := encoded &&& 0xffff
  if inst.opcode = 0x08 then
    (none, { p with regs := setI32 p.regs rt (wrapI32 (getI32 p.regs rs + toI16 imm)),
                    pc := p.pc + 4 })
  else if inst.opcode = 0x09 then
    (none, { p with regs := setU32 p.regs rt ((getU32 p.regs rs + imm) % 2 ^ 32),
                    pc := p.pc + 4 })
  else if inst.opcode = 0x0c then
    (none, { p with regs := setU32 p.regs rt (getU32 p.regs rs &&& imm),
                    pc := p.pc + 4 })
  else if inst.opcode = 0x0f then
    (none, { p with regs := setU32 p.regs rt (imm <<< 16 % 2 ^ 32),
                    pc := p.pc + 4 })
  else if inst.opcode = 0x0d then
    (none, { p with regs := setU32 p.regs rt (getU32 p.regs rs ||| imm),
                    pc := p.pc + 4 })
  else if inst.opcode = 0x0a then
    (none, { p with regs := setU32 p.regs rt (if getI32 p.regs rs < toI16 imm then 1 else 0),
                    pc := p.pc + 4 })
  else if inst.opcode = 0x0b then
    (none, { p with regs := setU32 p.regs rt (if getU32 p.regs rs < imm then 1 else 0),
                    pc := p.pc + 4 })
  else if inst.opcode = 0x24 then
    let m := setPos p.mem (toNat64 ((getU32 p.regs rs : Int) + toI16 imm))
    let r := memReadU8 m
    (none, { p with regs := setU32 p.regs rt r.1, mem := r.2, pc := p.pc + 4 })
  else if inst.opcode = 0x25 then
    let m := setPos p.mem (toNat64 ((getU32 p.regs rs : Int) + toI16 imm))
    let r := memReadU16 m
    (none, { p with regs := setU32 p.regs rt r.1, mem := r.2, pc := p.pc + 4 })
  else if inst.opcode = 0x23 then
    let m := setPos p.mem (toNat64 ((getU32 p.regs rs : Int) + toI16 imm))
    let r := memReadU32 m
    (none, { p with regs := setU32 p.regs rt r.1, mem := r.2, pc := p.pc + 4 })
  else if inst.opcode = 0x28 then
    let m := setPos p.mem (toNat64 ((getU32 p.regs rs : Int) + toI16 imm))
    (none, { p with mem := memWriteU8 m (getU32 p.regs rt), pc := p.pc + 4 })
  else if inst.opcode = 0x29 then
    let m := setPos p.mem (toNat64 ((getU32 p.regs rs : Int) + toI16 imm))
    (none, { p with mem := memWriteU16 m (getU32 p.regs rt), pc := p.pc + 4 })
  else if inst.opcode = 0x2b then
    let m := setPos p.mem (toNat64 ((getU32 p.regs rs : Int) + toI16 imm))
    (none, { p with mem := memWriteU32 m (getU32 p.regs rt), pc := p.pc + 4 })
  else if inst.opcode = 0x04 then
    if getU32 p.regs rt = getU32 p.regs rs then
      (none, { p with pc := toNat64 ((p.pc : Int) + 4 + toI16 imm * 4) })
    else (none, { p with pc := p.pc + 4 })
  else if inst.opcode = 0x05 then
    if getU32 p.regs rt ≠ getU32 p.regs rs then
      (none, { p with pc := toNat64 ((p.pc : Int) + 4 + toI16 imm * 4) })
    else (none, { p with pc := p.pc + 4 })
  else (some .panicked, p)

/-- `Processor::call_jtype`: `j` and `jal`.  `jal` stores the word-shifted
return address `(pc >> 2) as u32 + 1` into `$ra` before jumping. -/
def callJtype (encoded : Nat) (inst : Inst) (p : ProcState) : Option ExecErrorM × ProcState :=
  let addr := encoded &&& 0x3ffffff
  if inst.opcode = 0x02 then
    (none, { p with pc := addr <<< 2 })
  else if inst.opcode = 0x03 then
    (none, { p with regs := setU32 p.regs 31 ((p.pc >>> 2 % 2 ^ 32 + 1) % 2 ^ 32),
                    pc := addr <<< 2 })
  else (some .panicked, p)

/-- The syscall-4 string loop: read bytes until a NUL; pushing a byte past
1024 panics (`fuel` = 1026 is always enough to reach one of the two
outcomes). -/
def readCString : Nat → Memory → List Nat → Except Unit (List Nat) × Memory
  | 0, m, _ => (.error (), m)
  | fuel + 1, m, acc =>
    let r := memReadU8 m
    if r.1 = 0 then (.ok acc.reverse, r.2)
    else if acc.length + 1 > 1024 then (.error (), r.2)
    else readCString fuel r.2 (r.1 :: acc)

/-- The `syscall` arm of `Processor::step` (func 0x0c): dispatch on `$v0`
(1 = print int, 4 = print string, 5 = read int, anything else a logged
no-op) and advance PC by 4 after the dispatch `match` — the syscall-5
parse error (and `io_recv` failure) propagates with `?` before that
increment is reached, leaving PC unchanged. -/
def syscallStep (p : ProcState) (queue : List ProcMessage) : StepRes :=
  let v0 := getU32 p.regs 2
  if v0 = 1 then
    ⟨none, { p with pc := p.pc + 4 }, [.intOut (getI32 p.regs 4)], queue⟩
  else if v0 = 4 then
    let m := setPos p.mem (getU32 p.regs 4)
    let r := readCString 1026 m []
    match r.1 with
    | .ok bytes => ⟨none, { p with mem := r.2, pc := p.pc + 4 }, [.bytesOut bytes], queue⟩
    | .error _ => ⟨some .panicked, { p with mem := r.2 }, [], queue⟩
  else if v0 = 5 then
    match ioRecv queue with
    | (.error _, queue) => ⟨some .ioRecvErr, p, [], queue⟩
    | (.ok input, queue) =>
      match parseSIntDec (2 ^ 31) input.toList with
      | none => ⟨some .intParseErr, p, [], queue⟩
      | some v =>
        ⟨none, { p with regs := setI32 p.regs 2 v, pc := p.pc + 4 }, [], queue⟩
  else ⟨none, { p with pc := p.pc + 4 }, [], queue⟩

/-- `Processor::step`: fetch the big-endian word at `pc`, decode via
`INST_OPCODE_FUNC`, execute.  Unknown opcode/func combinations are logged
no-ops (PC unchanged). -/
def step (p : ProcState) (queue : List ProcMessage) : StepRes :=
  let m1 := setPos p.mem p.pc
  let fr := memReadU32 m1
  let data := fr.1
  let p := { p with mem := fr.2 }
  let opcode := data >>> 26
  if opcode = 0 then
    let func := data &&& 0x3f
    match lookupOpcodeFunc 0 func with
    | none => ⟨none, p, [], queue⟩
    | some inst =>
      if func = 0x0c then syscallStep p queue
      else
        let r := callRtype data inst p
        ⟨r.1, r.2, [], queue⟩
  else
    match lookupOpcodeFunc opcode 0 with
    | none => ⟨none, p, [], queue⟩
    | some inst =>
      match inst.ty with
      | .i =>
        let r := callItype data inst p
        ⟨r.1, r.2, [], queue⟩
      | .ils =>
        let r := callItype data inst p
        ⟨r.1, r.2, [], queue⟩
      | .j =>
        let r := callJtype data inst p
        ⟨r.1, r.2, [], queue⟩
      | .r => ⟨some .panicked, p, [], queue⟩

/-! ## Loader (src/simulator/load.rs)

The two-pass assembler.  Pass 1 walks the AST, encoding what it can and
queuing label-dependent instructions; pass 2 backpatches them.  Rust
panics (`unimplemented!` for the `li`/`move` pseudo expansions,
`unreachable!`) are modelled as distinguished errors. -/

/-- `AssembleError` plus panic markers. -/
inductive AsmError where
  | ioErr
  | unknownLabel (s : String)
  | panicUnimplemented
  | panicUnreachable
deriving DecidableEq, Repr

/-- The mutable state of `LoadContext`: the processor's memory, the label
table, the backpatch queue, and the PC-to-line list. -/
structure LoadSt where
  mem : Memory
  labels : List (String × Nat)
  nodesWithLabels : List (Nat × Node)
  addrLines : List (Nat × Nat)
deriving DecidableEq, Repr

/-- `HashMap::insert` for the label table (overwrites an existing key:
last definition wins). -/
def insertLabel : List (String × Nat) → String → Nat → List (String × Nat)
  | [], key, v => [(key, v)]
  | (k, v') :: t, key, v =>
    if k = key then (key, v) :: t else (k, v') :: insertLabel t key v

/-- `HashMap::get` for the label table. -/
def lookupLabel : List (String × Nat) → String → Option Nat
  | [], _ => none
  | (k, v) :: t, key => if k = key then some v else lookupLabel t key

/-- Fallback rows for the infallible `INST_MNEMONICS["lui"]`-style
indexing. -/
def dummyInst : Inst := ⟨"", .i, [], 0, 0⟩

/-- `LoadContext::load_rtype`. -/
def loadRtypeF (st : LoadSt) (node : Node) (inst : Inst) (rs rt rd shamt : Nat) : LoadSt :=
  let pos := st.mem.pos
  let st := { st with addrLines := st.addrLines ++ [(pos, node.line)] }
  let encoded := inst.opcode <<< 26 ||| rs <<< 21 ||| rt <<< 16 ||| rd <<< 11 |||
    shamt <<< 6 ||| inst.func
  { st with mem := memWriteU32 st.mem encoded }

/-- `LoadContext::load_itype`: encode opcode/rs/rt now; a literal is OR'd
in (`Half` as-is, `Addr` as `as u16 as u32 >> 2`), a label leaves the
placeholder and queues the instruction for pass 2. -/
def loadItypeF (st : LoadSt) (node : Node) (inst : Inst) (rs rt : Nat) (imm : NodeImm) : LoadSt :=
  let pos := st.mem.pos
  let st := { st with addrLines := st.addrLines ++ [(pos, node.line)] }
  let base := inst.opcode <<< 26 ||| rs <<< 21 ||| rt <<< 16
  match imm with
  | .half h => { st with mem := memWriteU32 st.mem (base ||| h) }
  | .addrImm a => { st with mem := memWriteU32 st.mem (base ||| ((a % 2 ^ 16) >>> 2)) }
  | .labelRef _ =>
    { st with nodesWithLabels := st.nodesWithLabels ++ [(pos, node)],
              mem := memWriteU32 st.mem base }

/-- `LoadContext::load_jtype`. -/
def loadJtypeF (st : LoadSt) (node : Node) (inst : Inst) (addr : NodeImm) : LoadSt :=
  let pos := st.mem.pos
  let st := { st with addrLines := st.addrLines ++ [(pos, node.line)] }
  let base := inst.opcode <<< 26
  match addr with
  | .half h => { st with mem := memWriteU32 st.mem (base ||| (h >>> 2)) }
  | .addrImm a => { st with mem := memWriteU32 st.mem (base ||| (a >>> 2)) }
  | .labelRef _ =>
    { st with nodesWithLabels := st.nodesWithLabels ++ [(pos, node)],
              mem := memWriteU32 st.mem base }

/-- UTF-8 bytes of one character (Rust `str::as_bytes`). -/
def utf8Bytes (c : Char) : List Nat :=
  let v := c.toNat
  if v < 0x80 then [v]
  else if v < 0x800 then [0xC0 ||| v >>> 6, 0x80 ||| (v &&& 0x3f)]
  else if v < 0x10000 then
    [0xE0 ||| v >>> 12, 0x80 ||| (v >>> 6 &&& 0x3f), 0x80 ||| (v &&& 0x3f)]
  else
    [0xF0 ||| v >>> 18, 0x80 ||| (v >>> 12 &&& 0x3f), 0x80 ||| (v >>> 6 &&& 0x3f),
      0x80 ||| (v &&& 0x3f)]

/-- UTF-8 bytes of a string. -/
def strBytes (s : String) : List Nat := s.toList.flatMap utf8Bytes

/-- Pass 1 of `LoadContext::load`: walk the nodes, moving the cursor for
sections, recording labels, writing directives and encodable instructions,
expanding pseudo instructions (`la` into `lui`+`ori` with queued
backpatch, `nop` into a zero word; everything else hits
`unimplemented!`). -/
def pass1 : LoadSt → List Node → Option AsmError × LoadSt
  | st, [] => (none, st)
  | st, node :: rest =>
    match node.kind with
    | .sectionNode .data => pass1 { st with mem := setPos st.mem ADDR_STATIC } rest
    | .sectionNode .text => pass1 { st with mem := setPos st.mem ADDR_TEXT } rest
    | .labelDef s => pass1 { st with labels := insertLabel st.labels s st.mem.pos } rest
    | .directive (.byte v) => pass1 { st with mem := memWriteU8 st.mem v } rest
    | .directive (.half v) => pass1 { st with mem := memWriteU16 st.mem v } rest
    | .directive (.word v) => pass1 { st with mem := memWriteU32 st.mem v } rest
    | .directive (.asciiz s) =>
      pass1 { st with mem := memWriteU8 (memWrite st.mem (strBytes s)) 0 } rest
    | .directive (.stringz s) =>
      pass1 { st with mem := memAlign (memWriteU8 (memWrite st.mem (strBytes s)) 0) 4 } rest
    | .directive (.align pow) => pass1 { st with mem := memAlign st.mem (2 ^ pow) } rest
    | .instR inst rs rt rd shamt => pass1 (loadRtypeF st node inst rs rt rd shamt) rest
    | .instI inst rs rt imm => pass1 (loadItypeF st node inst rs rt imm) rest
    | .instJ inst addr => pass1 (loadJtypeF st node inst addr) rest
    | .instPseudo inst _ rt _ _ =>
      if inst.mnemonic = "la" then
        let st := { st with nodesWithLabels := st.nodesWithLabels ++ [(st.mem.pos, node)] }
        let st := loadItypeF st node ((findInst "lui").getD dummyInst) 0 rt (.half 0)
        let st := loadItypeF st node ((findInst "ori").getD dummyInst) rt rt (.half 0)
        pass1 st rest
      else if inst.mnemonic = "nop" then
        let st := { st with addrLines := st.addrLines ++ [(st.mem.pos, node.line)] }
        pass1 { st with mem := memWriteU32 st.mem 0 } rest
      else (some .panicUnimplemented, st)

/-- Pass 2 of `LoadContext::load`: for each queued `(address, node)` pair,
re-read the placeholder word and OR the resolved value in.  Branch
mnemonics (`INST_ADDR_RELATIVE`) use the sign-extended word offset
`(label as i32 - (addr as i32 + 4)) >> 2` — the full 32-bit two's
complement pattern is OR'd into the word.  Other instructions OR in
`label as u32 >> 2`.  A queued `la` splits the resolved target into the
`lui`/`ori` immediates, preserving each word's upper half. -/
def pass2 : LoadSt → List (Nat × Node) → Option AsmError × LoadSt
  | st, [] => (none, st)
  | st, (addr, node) :: rest =>
    match node.kind with
    | .instI inst _ _ imm =>
      let m := setPos st.mem addr
      let r := memReadU32 m
      let encoded := r.1
      match imm with
      | .labelRef s =>
        match lookupLabel st.labels s with
        | none => (some (.unknownLabel s), { st with mem := r.2 })
        | some label =>
          let encoded :=
            if inst.mnemonic ∈ INST_ADDR_RELATIVE then
              encoded ||| toU32 (Int.fdiv (wrapI32 (toI32 label - wrapI32 (toI32 addr + 4))) 4)
            else encoded ||| (label % 2 ^ 32) >>> 2
          pass2 { st with mem := memWriteU32 (setPos r.2 addr) encoded } rest
      | _ => (some .panicUnreachable, { st with mem := r.2 })
    | .instJ inst imm =>
      let m := setPos st.mem addr
      let r := memReadU32 m
      let encoded := r.1
      match imm with
      | .labelRef s =>
        match lookupLabel st.labels s with
        | none => (some (.unknownLabel s), { st with mem := r.2 })
        | some label =>
          let encoded :=
            if inst.mnemonic ∈ INST_ADDR_RELATIVE then
              encoded ||| toU32 (Int.fdiv (wrapI32 (toI32 label - wrapI32 (toI32 addr + 4))) 4)
            else encoded ||| (label % 2 ^ 32) >>> 2
          pass2 { st with mem := memWriteU32 (setPos r.2 addr) encoded } rest
      | _ => (some .panicUnreachable, { st with mem := r.2 })
    | .instPseudo inst _ _ _ instAddr =>
      if inst.mnemonic = "la" then
        let m := setPos st.mem addr
        let r1 := memReadU32 m
        let r2 := memReadU32 r1.2
        let target? : Except AsmError Nat :=
          match instAddr with
          | .labelRef s =>
            match lookupLabel st.labels s with
            | none => .error (.unknownLabel s)
            | some label => .ok label
          | .half h => .ok h
          | .addrImm a => .ok a
        match target? with
        | .error e => (some e, { st with mem := r2.2 })
        | .ok target =>
          let lui' := r1.1 &&& 0xffff0000 ||| ((target &&& 0xffff0000) >>> 16)
          let ori' := r2.1 &&& 0xffff0000 ||| (target &&& 0xffff)
          let m := memWriteU32 (memWriteU32 (setPos r2.2 addr) lui') ori'
          pass2 { st with mem := m } rest
      else (some .panicUnimplemented, st)
    | _ => (some .panicUnreachable, st)

/-- `LoadContext::load`: reset the processor, set `active`, run both
passes; on success set `loaded` and return the PC-to-line list.  On any
failure the partially written memory remains and `loaded` stays false. -/
def load (p : ProcState) (nodes : List Node) :
    Except AsmError (List (Nat × Nat)) × ProcState :=
  let p := procReset p
  let p := { p with active := true }
  let st0 : LoadSt := ⟨p.mem, [], [], []⟩
  let r1 := pass1 st0 nodes
  match r1.1 with
  | some e => (.error e, { p with mem := r1.2.mem })
  | none =>
    let r2 := pass2 r1.2 r1.2.nodesWithLabels
    match r2.1 with
    | some e => (.error e, { p with mem := r2.2.mem })
    | none => (.ok r2.2.addrLines, { p with mem := r2.2.mem, loaded := true })

/-! ## Worker loop (src/simulator/spawn.rs)

The spawned worker thread first sends one full-state sync, then serially
dequeues commands.  A parse error on `Load` logs one message and then
`return`s out of the thread closure — the loop ends and every remaining
queued command is dropped.  A load error logs and continues.  Rust panics
during load or step kill the thread without a log message. -/

/-- Log events sent as `AppMessage::Log` (one constructor per `format!`
site in spawn.rs). -/
inductive LogMsg where
  | parseErrorLog (e : PError)
  | loadErrorLog (e : AsmError)
  | loadedLog
  | newPcLog (pc : Nat)
  | stepErrorLog (e : ExecErrorM)
deriving DecidableEq, Repr

/-- `AppMessage`. -/
inductive AppMsg where
  | outMsg (o : OutMsg)
  | logMsg (l : LogMsg)
  | pcLinesMsg (m : List (Nat × Nat))
  | syncMsg (pc : Nat) (active : Bool)
deriving DecidableEq, Repr

/-- The worker's command loop.  `fuel` bounds the number of iterations
(each iteration consumes at least one queued message, so the queue length
is always sufficient fuel). -/
def workerLoop : Nat → ProcState → List ProcMessage → List AppMsg × ProcState
  | _, p, [] => ([], p)
  | 0, p, _ :: _ => ([], p)
  | fuel + 1, p, msg :: rest =>
    match msg with
    | .resetMsg =>
      let p := procReset p
      let r := workerLoop fuel p rest
      (.syncMsg p.pc p.active :: r.1, r.2)
    | .loadMsg body =>
      match parseProgram body with
      | .error e => ([.logMsg (.parseErrorLog e)], p)
      | .ok nodes =>
        match load p nodes with
        | (.ok map, p) =>
          let r := workerLoop fuel p rest
          (.syncMsg p.pc p.active :: .pcLinesMsg map :: .logMsg .loadedLog :: r.1, r.2)
        | (.error e, p) =>
          if e = .panicUnimplemented ∨ e = .panicUnreachable then ([], p)
          else
            let r := workerLoop fuel p rest
            (.logMsg (.loadErrorLog e) :: r.1, r.2)
    | .stepMsg =>
      let s := step p rest
      match s.err with
      | none =>
        let r := workerLoop fuel s.proc s.queue
        (s.outputs.map .outMsg ++ .syncMsg s.proc.pc s.proc.active ::
          .logMsg (.newPcLog s.proc.pc) :: r.1, r.2)
      | some e =>
        if e = .panicked then (s.outputs.map .outMsg, s.proc)
        else
          let r := workerLoop fuel s.proc s.queue
          (s.outputs.map .outMsg ++ .logMsg (.stepErrorLog e) :: r.1, r.2)
    | .inputMsg _ => workerLoop fuel p rest

/-- `Processor::spawn` followed by delivering `queue` on the command
channel: the initial hard sync, then the worker loop. -/
def workerRun (queue : List ProcMessage) : List AppMsg × ProcState :=
  let p := procNew
  let r := workerLoop queue.length p queue
  (.syncMsg p.pc p.active :: r.1, r.2)

/-! ## Whole-pipeline helpers -/

/-- Parse and load a program into a fresh processor; `none` when parsing
or loading fails. -/
def loadProgram (src : String) : Option ProcState :=
  match parseProgram src with
  | .error _ => none
  | .ok nodes =>
    match load procNew nodes with
    | (.ok _, p) => some p
    | (.error _, _) => none

/-- Execute `n` single steps with an empty command queue. -/
def stepN : Nat → ProcState → ProcState
  | 0, p => p
  | n + 1, p => stepN n (step p []).proc

/-- Fetch the big-endian word stored at `addr`. -/
def fetchWord (m : Memory) (addr : Nat) : Nat := (memReadU32 (setPos m addr)).1

/-! ## Lemmas about the lexer's consumers -/

theorem csize_pos (c : Char) : 1 ≤ csize c := by
  unfold csize
  split
  · omega
  split
  · omega
  split <;> omega

theorem byteLen_cons (c : Char) (cs : List Char) :
    byteLen (c :: cs) = csize c + byteLen cs := rfl

/-- `take_while` consumes a prefix: the position only grows, position plus
remaining byte length is preserved, and the rest is no longer than the
input. -/
theorem takeW_spec (p : Char → Bool) : ∀ pos cs,
    pos ≤ (takeW p pos cs).1 ∧
    (takeW p pos cs).1 + byteLen (takeW p pos cs).2 = pos + byteLen cs ∧
    (takeW p pos cs).2.length ≤ cs.length := by
  intro pos cs
  induction cs generalizing pos with
  | nil => simp [takeW, byteLen]
  | cons c cs ih =>
    simp only [takeW]
    split
    · obtain ⟨h1, h2, h3⟩ := ih (pos + csize c)
      refine ⟨by omega, by rw [h2, byteLen_cons]; omega, le_trans h3 (by simp)⟩
    · simp

/-- The string-scanning closure consumes a prefix the same way. -/
theorem takeStringAux_spec : ∀ (esc : Bool) (pos : Nat) (cs : List Char),
    pos ≤ (takeStringAux esc pos cs).1 ∧
    (takeStringAux esc pos cs).1 + byteLen (takeStringAux esc pos cs).2 = pos + byteLen cs ∧
    (takeStringAux esc pos cs).2.length ≤ cs.length := by
  intro esc pos cs
  induction cs generalizing esc pos with
  | nil => simp [takeStringAux, byteLen]
  | cons c cs ih =>
    simp only [takeStringAux]
    split
    · obtain ⟨h1, h2, h3⟩ := ih true (pos + csize c)
      refine ⟨by omega, by rw [h2, byteLen_cons]; omega, le_trans h3 (by simp)⟩
    split
    · have := csize_pos c
      refine ⟨?_, ?_, ?_⟩
      · show pos ≤ pos + csize c
        omega
      · show pos + csize c + byteLen cs = pos + byteLen (c :: cs)
        rw [byteLen_cons]
        omega
      · show cs.length ≤ (c :: cs).length
        simp
    · obtain ⟨h1, h2, h3⟩ := ih false (pos + csize c)
      refine ⟨by omega, by rw [h2, byteLen_cons]; omega, le_trans h3 (by simp)⟩

/-- Numeric scanning consumes a prefix the same way. -/
theorem lexNum_spec (c : Char) (p1 : Nat) (cs : List Char) :
    p1 ≤ (lexNum c p1 cs).1 ∧
    (lexNum c p1 cs).1 + byteLen (lexNum c p1 cs).2 = p1 + byteLen cs ∧
    (lexNum c p1 cs).2.length ≤ cs.length := by
  cases cs with
  | nil => simp [lexNum, byteLen]
  | cons x cs2 =>
    simp only [lexNum]
    split
    · obtain ⟨h1, h2, h3⟩ := takeW_spec isHexScanChar (p1 + csize x) cs2
      refine ⟨by omega, by rw [h2, byteLen_cons]; omega, le_trans h3 (by simp)⟩
    · exact takeW_spec Char.isDigit p1 (x :: cs2)

/-! ## Lemmas about the accumulator invariants -/

theorem revChainLe_mono {p q : Nat} {acc : List Lexeme} (h : p ≤ q)
    (hc : RevChainLe p acc) : RevChainLe q acc := by
  cases acc with
  | nil => trivial
  | cons l rest =>
    obtain ⟨h1, h2, h3⟩ := hc
    exact ⟨le_trans h1 h, h2, h3⟩

theorem revChainLe_push {pos p2 line : Nat} {k : LexemeKind} {acc : List Lexeme}
    (h : RevChainLe pos acc) (hle : pos ≤ p2) :
    RevChainLe p2 (⟨pos, p2, line, k⟩ :: acc) :=
  ⟨le_refl _, hle, h⟩

theorem revCovers_push {pos p2 line : Nat} {k : LexemeKind} {acc : List Lexeme}
    (h : RevCovers pos acc) (hle : pos ≤ p2) :
    RevCovers p2 (⟨pos, p2, line, k⟩ :: acc) :=
  ⟨rfl, hle, h⟩

theorem appendOrAdd_chainLe {pos p2 line : Nat} {k : LexemeKind} {acc : List Lexeme}
    (h : RevChainLe pos acc) (hle : pos ≤ p2) :
    RevChainLe p2 (appendOrAdd acc pos p2 line k) := by
  cases acc with
  | nil => exact ⟨le_refl _, hle, trivial⟩
  | cons l rest =>
    obtain ⟨h1, h2, h3⟩ := h
    simp only [appendOrAdd]
    split
    · exact ⟨by simp, by simp; omega, by simpa using h3⟩
    · exact ⟨le_refl _, hle, h1, h2, h3⟩

theorem appendOrAdd_covers {pos p2 line : Nat} {k : LexemeKind} {acc : List Lexeme}
    (h : RevCovers pos acc) (hle : pos ≤ p2) :
    RevCovers p2 (appendOrAdd acc pos p2 line k) := by
  cases acc with
  | nil => exact ⟨rfl, hle, h⟩
  | cons l rest =>
    obtain ⟨h1, h2, h3⟩ := h
    simp only [appendOrAdd]
    split
    · exact ⟨by simp, by simp; omega, by simpa using h3⟩
    · exact ⟨rfl, hle, h1, h2, h3⟩

/-- Discharge one recursive tail call of `lexLoop` from the induction
hypothesis, transporting the final position. -/
theorem lexInv_step {ws cm : Bool} {n : Nat}
    (ih : ∀ (input : List Char), input.length ≤ n →
      ∀ (pos line : Nat) (flag : Bool) (acc : List Lexeme),
      RevChainLe pos acc → (ws = true → cm = true → RevCovers pos acc) →
      ∃ acc2, lexLoop ws cm n pos line flag acc input = acc2.reverse ∧
        RevChainLe (pos + byteLen input) acc2 ∧
        (ws = true → cm = true → RevCovers (pos + byteLen input) acc2))
    {pos' line : Nat} {flag : Bool} {acc' : List Lexeme} {rest : List Char} {total : Nat}
    (hlen : rest.length ≤ n)
    (htot : pos' + byteLen rest = total)
    (hch : RevChainLe pos' acc')
    (hcov : ws = true → cm = true → RevCovers pos' acc') :
    ∃ acc2, lexLoop ws cm n pos' line flag acc' rest = acc2.reverse ∧
      RevChainLe total acc2 ∧
      (ws = true → cm = true → RevCovers total acc2) := by
  obtain ⟨acc2, he, hc, hv⟩ := ih rest hlen pos' line flag acc' hch hcov
  exact ⟨acc2, he, htot ▸ hc, htot ▸ hv⟩

/-- Main invariant of `lexLoop`: starting from an accumulator that chains
below (and, with both options on, exactly tiles up to) position `pos`, the
loop returns the reversal of an accumulator with the same property at
`pos + byteLen input`. -/
theorem lexLoop_inv (ws cm : Bool) : ∀ (fuel : Nat) (input : List Char),
    input.length ≤ fuel → ∀ (pos line : Nat) (flag : Bool) (acc : List Lexeme),
    RevChainLe pos acc → (ws = true → cm = true → RevCovers pos acc) →
    ∃ acc2, lexLoop ws cm fuel pos line flag acc input = acc2.reverse ∧
      RevChainLe (pos + byteLen input) acc2 ∧
      (ws = true → cm = true → RevCovers (pos + byteLen input) acc2) := by
  intro fuel
  induction fuel with
  | zero =>
    intro input hlen pos line flag acc h1 h2
    have hnil : input = [] := List.length_eq_zero.mp (Nat.le_zero.mp hlen)
    subst hnil
    exact ⟨acc, rfl, by simpa [byteLen] using h1, fun a b => by simpa [byteLen] using h2 a b⟩
  | succ n ih =>
    intro input hlen pos line flag acc h1 h2
    cases input with
    | nil =>
      exact ⟨acc, rfl, by simpa [byteLen] using h1, fun a b => by simpa [byteLen] using h2 a b⟩
    | cons c cs =>
      have hcs : cs.length ≤ n := by simpa using hlen
      have hsz := csize_pos c
      rw [byteLen_cons]
      simp only [lexLoop]
      split
      · -- comment branch
        obtain ⟨hA, hB, hC⟩ := takeW_spec (fun x => x ≠ '\n') (pos + csize c) cs
        refine lexInv_step ih (le_trans hC hcs) (by omega) ?_ ?_
        · cases cm with
          | false => exact revChainLe_mono (by omega) h1
          | true => exact revChainLe_push h1 (by omega)
        · intro hws hcm
          subst hcm
          exact revCovers_push (h2 hws rfl) (by omega)
      split
      · -- section branch
        obtain ⟨hA, hB, hC⟩ := takeW_spec Char.isAlpha (pos + csize c) cs
        exact lexInv_step ih (le_trans hC hcs) (by omega)
          (revChainLe_push h1 (by omega)) (fun a b => revCovers_push (h2 a b) (by omega))
      split
      · -- register branch
        obtain ⟨hA, hB, hC⟩ := takeW_spec Char.isAlphanum (pos + csize c) cs
        exact lexInv_step ih (le_trans hC hcs) (by omega)
          (revChainLe_push h1 (by omega)) (fun a b => revCovers_push (h2 a b) (by omega))
      split
      · -- label / instruction branch
        obtain ⟨hA, hB, hC⟩ := takeW_spec (fun x => x = '_' ∨ x.isAlphanum) (pos + csize c) cs
        split
        · -- the scanned run is followed by more characters
          rename_i c2 cs2 heq
          rw [heq] at hB hC
          rw [byteLen_cons] at hB
          have hsz2 := csize_pos c2
          have hlc : (c2 :: cs2).length = cs2.length + 1 := by simp
          split
          · -- a trailing colon: label definition
            refine lexInv_step ih (by omega) (by omega) ?_ ?_
            · exact revChainLe_push h1 (by omega)
            · exact fun a b => revCovers_push (h2 a b) (by omega)
          split
          · -- line already has an instruction: label reference
            refine lexInv_step ih (by omega) ?_ ?_ ?_
            · rw [byteLen_cons]
              omega
            · exact revChainLe_push h1 (by omega)
            · exact fun a b => revCovers_push (h2 a b) (by omega)
          · -- first bare word on the line: instruction
            refine lexInv_step ih (by omega) ?_ ?_ ?_
            · rw [byteLen_cons]
              omega
            · exact revChainLe_push h1 (by omega)
            · exact fun a b => revCovers_push (h2 a b) (by omega)
        · -- the scanned run reaches the end of input
          rename_i heq
          rw [heq] at hB
          simp only [byteLen] at hB
          have hr : (takeW (fun x => x = '_' ∨ x.isAlphanum) (pos + csize c) cs).1 =
              pos + (csize c + byteLen cs) := by omega
          have hps : pos ≤ (takeW (fun x => x = '_' ∨ x.isAlphanum) (pos + csize c) cs).1 :=
            le_trans (Nat.le_add_right pos (csize c)) hA
          split
          · exact ⟨⟨pos, _, line, .label⟩ :: acc, rfl, ⟨le_of_eq hr, hps, h1⟩,
              fun a b => ⟨hr, hps, h2 a b⟩⟩
          · exact ⟨⟨pos, _, line, .inst⟩ :: acc, rfl, ⟨le_of_eq hr, hps, h1⟩,
              fun a b => ⟨hr, hps, h2 a b⟩⟩
      split
      · -- negative-immediate branch
        obtain ⟨hA, hB, hC⟩ := takeW_spec Char.isDigit (pos + csize c) cs
        exact lexInv_step ih (le_trans hC hcs) (by omega)
          (revChainLe_push h1 (by omega)) (fun a b => revCovers_push (h2 a b) (by omega))
      split
      · -- numeric-immediate branch
        obtain ⟨hA, hB, hC⟩ := lexNum_spec c (pos + csize c) cs
        exact lexInv_step ih (le_trans hC hcs) (by omega)
          (revChainLe_push h1 (by omega)) (fun a b => revCovers_push (h2 a b) (by omega))
      split
      · -- string-immediate branch
        obtain ⟨hA, hB, hC⟩ := takeStringAux_spec false (pos + csize c) cs
        exact lexInv_step ih (le_trans hC hcs) (by omega)
          (revChainLe_push h1 (by omega)) (fun a b => revCovers_push (h2 a b) (by omega))
      split
      · -- whitespace branch
        refine lexInv_step ih hcs (by omega) ?_ ?_
        · cases ws with
          | false => exact revChainLe_mono (by omega) h1
          | true => exact appendOrAdd_chainLe h1 (by omega)
        · intro hws hcm
          subst hws
          exact appendOrAdd_covers (h2 rfl hcm) (by omega)
      · -- punctuation branch
        exact lexInv_step ih hcs (by omega)
          (appendOrAdd_chainLe h1 (by omega))
          (fun a b => appendOrAdd_covers (h2 a b) (by omega))

/-! ## From the reversed invariants to forward statements -/

theorem covers_append : ∀ (xs ys : List Lexeme) (a b c : Nat),
    Covers a xs b → Covers b ys c → Covers a (xs ++ ys) c := by
  intro xs
  induction xs with
  | nil =>
    intro ys a b c h1 h2
    have : a = b := h1
    simpa [this] using h2
  | cons l t ih =>
    intro ys a b c h1 h2
    obtain ⟨hx, hy, hz⟩ := h1
    exact ⟨hx, hy, ih ys l.stop b c hz h2⟩

theorem chainLe_mono_left {a b : Nat} {ys : List Lexeme} (h : a ≤ b)
    (hc : ChainLe b ys c) : ChainLe a ys c := by
  cases ys with
  | nil => exact le_trans h hc
  | cons l t =>
    obtain ⟨h1, h2, h3⟩ := hc
    exact ⟨le_trans h h1, h2, h3⟩

theorem chainLe_append : ∀ (xs ys : List Lexeme) (a b c : Nat),
    ChainLe a xs b → ChainLe b ys c → ChainLe a (xs ++ ys) c := by
  intro xs
  induction xs with
  | nil =>
    intro ys a b c h1 h2
    exact chainLe_mono_left h1 h2
  | cons l t ih =>
    intro ys a b c h1 h2
    obtain ⟨hx, hy, hz⟩ := h1
    exact ⟨hx, hy, ih ys l.stop b c hz h2⟩

theorem revCovers_to_covers : ∀ (acc : List Lexeme) (p : Nat),
    RevCovers p acc → Covers 0 acc.reverse p := by
  intro acc
  induction acc with
  | nil =>
    intro p h
    exact h.symm
  | cons l t ih =>
    intro p h
    obtain ⟨h1, h2, h3⟩ := h
    have single : Covers l.start [l] p := ⟨rfl, h2, h1⟩
    simpa using covers_append t.reverse [l] 0 l.start p (ih l.start h3) single

theorem revChainLe_to_chainLe : ∀ (acc : List Lexeme) (p : Nat),
    RevChainLe p acc → ChainLe 0 acc.reverse p := by
  intro acc
  induction acc with
  | nil =>
    intro p _
    exact Nat.zero_le p
  | cons l t ih =>
    intro p h
    obtain ⟨h1, h2, h3⟩ := h
    have single : ChainLe l.start [l] p := ⟨le_refl _, h2, h1⟩
    simpa using chainLe_append t.reverse [l] 0 l.start p (ih l.start h3) single

/-! ## Byte-range extraction -/

theorem covers_le : ∀ (ls : List Lexeme) (a b : Nat), Covers a ls b → a ≤ b := by
  intro ls
  induction ls with
  | nil =>
    intro a b h
    exact le_of_eq h
  | cons l t ih =>
    intro a b h
    obtain ⟨h1, h2, h3⟩ := h
    exact h1 ▸ le_trans h2 (ih l.stop b h3)

theorem extractFrom_none_below : ∀ (cs : List Char) (o a b : Nat), b ≤ o →
    extractFrom o cs a b = [] := by
  intro cs
  induction cs with
  | nil => intro o a b _; simp [extractFrom]
  | cons c t ih =>
    intro o a b h
    have := csize_pos c
    simp only [extractFrom]
    split_ifs with hx
    · omega
    · exact ih (o + csize c) a b (by omega)

theorem extractFrom_split : ∀ (cs : List Char) (o a m b : Nat), a ≤ m → m ≤ b →
    extractFrom o cs a b = extractFrom o cs a m ++ extractFrom o cs m b := by
  intro cs
  induction cs with
  | nil => intro o a m b _ _; simp [extractFrom]
  | cons c t ih =>
    intro o a m b h1 h2
    have := csize_pos c
    simp only [extractFrom]
    split_ifs with hx hy hz hz2 hy3 hz4 hz5 <;>
      first
        | omega
        | (simp [ih (o + csize c) a m b h1 h2]
           done)
        | (rw [ih (o + csize c) a m b h1 h2,
            extractFrom_none_below t (o + csize c) a m (by omega)]
           simp)

theorem extractFrom_empty : ∀ (cs : List Char) (o a b : Nat), b ≤ a →
    extractFrom o cs a b = [] := by
  intro cs
  induction cs with
  | nil => intro o a b _; simp [extractFrom]
  | cons c t ih =>
    intro o a b h
    simp only [extractFrom]
    split_ifs with hx
    · omega
    · exact ih (o + csize c) a b h

theorem extractFrom_all : ∀ (cs : List Char) (o a b : Nat), a ≤ o → o + byteLen cs ≤ b →
    extractFrom o cs a b = cs := by
  intro cs
  induction cs with
  | nil => intro o a b _ _; simp [extractFrom]
  | cons c t ih =>
    intro o a b h1 h2
    rw [byteLen_cons] at h2
    have := csize_pos c
    simp only [extractFrom]
    rw [if_pos ⟨h1, by omega⟩]
    rw [ih (o + csize c) a b (by omega) (by omega)]

/-- Tiling ranges extract a partition: joining the per-lexeme slices gives
exactly the characters whose offsets fall in the tiled interval. -/
theorem covers_extract : ∀ (ls : List Lexeme) (a b : Nat) (o : Nat) (cs : List Char),
    Covers a ls b →
    (ls.map (fun l => extractFrom o cs l.start l.stop)).flatten = extractFrom o cs a b := by
  intro ls
  induction ls with
  | nil =>
    intro a b o cs h
    have : a = b := h
    simp [this, extractFrom_empty cs o b b (le_refl b)]
  | cons l t ih =>
    intro a b o cs h
    obtain ⟨h1, h2, h3⟩ := h
    have hsb : l.stop ≤ b := covers_le t l.stop b h3
    simp only [List.map_cons, List.flatten_cons]
    rw [ih l.stop b o cs h3, ← h1,
      ← extractFrom_split cs o l.start l.stop b h2 hsb]

/-! ## Claim theorems -/

/-- Claim C8: for any input, lexing with both whitespace and comments
enabled produces a lexeme sequence whose byte ranges, concatenated in
order, cover the entire input with no gaps and no overlaps (`Covers 0 _
(byteLen input)`), so that the per-lexeme slices joined in order
reconstruct the input byte-for-byte; and in every mode the byte ranges
form an ordered, non-overlapping chain inside the input, so each range
denotes exactly the slice it covers. -/
theorem c8_lexer_coverage (input : List Char) :
    (Covers 0 (lex true true input) (byteLen input) ∧
      ((lex true true input).map
        (fun l => extractFrom 0 input l.start l.stop)).flatten = input) ∧
    ∀ ws cm : Bool, ChainLe 0 (lex ws cm input) (byteLen input) := by
  constructor
  · obtain ⟨acc2, he, hch, hcov⟩ :=
      lexLoop_inv true true input.length input (le_refl _) 0 0 false [] trivial (fun _ _ => rfl)
    have hcov' := hcov rfl rfl
    rw [Nat.zero_add] at hcov'
    have hc : Covers 0 (lex true true input) (byteLen input) := by
      rw [lex, he]
      exact revCovers_to_covers acc2 _ hcov'
    refine ⟨hc, ?_⟩
    rw [covers_extract _ 0 (byteLen input) 0 input hc]
    exact extractFrom_all input 0 0 (byteLen input) (le_refl 0) (by omega)
  · intro ws cm
    obtain ⟨acc2, he, hch, hcov⟩ :=
      lexLoop_inv ws cm input.length input (le_refl _) 0 0 false [] trivial (fun _ _ => rfl)
    rw [Nat.zero_add] at hch
    rw [lex, he]
    exact revChainLe_to_chainLe acc2 _ hch

theorem getD_set_self : ∀ (l : List Nat) (n v : Nat), n < l.length →
    (l.set n v).getD n 0 = v := by
  intro l
  induction l with
  | nil =>
    intro n v h
    simp at h
  | cons a t ih =>
    intro n v h
    cases n with
    | zero => simp
    | succ m =>
      simp only [List.set_cons_succ, List.getD_cons_succ]
      exact ih m v (by simpa using h)

/-- Claim C10: executing `jal` at a word-aligned address `A` writes
`(A >> 2) + 1` into `$ra`, and a subsequent `jr` through a register field
naming `$ra` (with `$ra` untouched in between) sets `PC` to exactly
`A + 4`: the return-address convention and `jr`'s shift-by-2 register
interpretation are mutually consistent. -/
theorem c10_jal_jr_consistency (p : ProcState) (encJal encJr : Nat)
    (hlen : p.regs.length = 32)
    (halign : p.pc % 4 = 0) (hbound : p.pc < 2 ^ 32)
    (hrs : encJr >>> 21 &&& 0x1f = 31) :
    getU32 (callJtype encJal ⟨"jal", .j, [.addr, .noArg, .noArg], 0x03, 0x00⟩ p).2.regs 31 =
      p.pc >>> 2 + 1 ∧
    (callRtype encJr ⟨"jr", .r, [.rs, .noArg, .noArg], 0x00, 0x08⟩
      (callJtype encJal ⟨"jal", .j, [.addr, .noArg, .noArg], 0x03, 0x00⟩ p).2).2.pc =
      p.pc + 4 := by
  have hdiv : p.pc >>> 2 = p.pc / 4 := Nat.shiftRight_eq_div_pow p.pc 2
  have hlt : p.pc / 4 + 1 < 2 ^ 32 := by omega
  have hjal : callJtype encJal ⟨"jal", .j, [.addr, .noArg, .noArg], 0x03, 0x00⟩ p =
      (none, { p with regs := setU32 p.regs 31 ((p.pc >>> 2 % 2 ^ 32 + 1) % 2 ^ 32),
                      pc := (encJal &&& 0x3ffffff) <<< 2 }) := by
    simp [callJtype]
  have hstored : (p.pc >>> 2 % 2 ^ 32 + 1) % 2 ^ 32 = p.pc / 4 + 1 := by
    rw [hdiv]
    omega
  have hra : getU32 (callJtype encJal ⟨"jal", .j, [.addr, .noArg, .noArg], 0x03, 0x00⟩ p).2.regs
      31 = p.pc >>> 2 + 1 := by
    rw [hjal]
    show getU32 (setU32 p.regs 31 ((p.pc >>> 2 % 2 ^ 32 + 1) % 2 ^ 32)) 31 = p.pc >>> 2 + 1
    rw [getU32, setU32, hstored, Nat.mod_eq_of_lt hlt, getD_set_self p.regs 31 _ (by omega), hdiv]
  refine ⟨hra, ?_⟩
  have hjr : ∀ q : ProcState,
      (callRtype encJr ⟨"jr", .r, [.rs, .noArg, .noArg], 0x00, 0x08⟩ q).2.pc =
        getU32 q.regs (encJr >>> 21 &&& 0x1f) <<< 2 := by
    intro q
    simp [callRtype]
  rw [hjr, hrs, hra, hdiv, Nat.shiftLeft_eq]
  have : p.pc / 4 * 4 = p.pc := Nat.div_mul_cancel (Nat.dvd_of_mod_eq_zero halign)
  omega

/-- Witness for C10 at a concrete word-aligned address. -/
theorem c10_jal_jr_witness :
    getU32 (callJtype ((0x03 <<< 26) ||| 0x100005)
        ⟨"jal", .j, [.addr, .noArg, .noArg], 0x03, 0x00⟩
        { procNew with pc := 0x400000 }).2.regs 31 = 0x100001 ∧
    (callRtype ((31 <<< 21) ||| 0x08) ⟨"jr", .r, [.rs, .noArg, .noArg], 0x00, 0x08⟩
      (callJtype ((0x03 <<< 26) ||| 0x100005)
        ⟨"jal", .j, [.addr, .noArg, .noArg], 0x03, 0x00⟩
        { procNew with pc := 0x400000 }).2).2.pc = 0x400004 := by
  have h := c10_jal_jr_consistency { procNew with pc := 0x400000 }
    ((0x03 <<< 26) ||| 0x100005) ((31 <<< 21) ||| 0x08)
    (by decide) (by decide) (by decide) (by decide)
  exact ⟨h.1, h.2⟩

/-- Claim C5 (amended): whenever a syscall instruction (R-type, func 0x0c)
is executed and the dispatch completes without error, PC advances by 4 —
for an unrecognized code in `$v0`, for print-int (`$v0 = 1`), for a
print-string (`$v0 = 4`) whose string loop finds its NUL terminator, and
for a successful read-int (`$v0 = 5`) — while for syscall 5 with
malformed input the step surfaces a propagated parse error, leaves `$v0`
(indeed all registers) unchanged, and leaves PC unchanged (it does not
advance). -/
theorem c5_syscall_pc (p : ProcState) (q : List ProcMessage) (d : Nat)
    (hfetch : (memReadU32 (setPos p.mem p.pc)).1 = d)
    (hop : d >>> 26 = 0) (hfn : d &&& 0x3f = 0x0c) :
    (∀ v0, getU32 p.regs 2 = v0 → v0 ≠ 1 → v0 ≠ 4 → v0 ≠ 5 →
      (step p q).err = none ∧ (step p q).proc.pc = p.pc + 4 ∧
        (step p q).proc.regs = p.regs) ∧
    (getU32 p.regs 2 = 1 →
      (step p q).err = none ∧ (step p q).proc.pc = p.pc + 4 ∧
        (step p q).proc.regs = p.regs) ∧
    (∀ bytes, getU32 p.regs 2 = 4 →
      (readCString 1026 (setPos (memReadU32 (setPos p.mem p.pc)).2 (getU32 p.regs 4)) []).1 =
        .ok bytes →
      (step p q).err = none ∧ (step p q).proc.pc = p.pc + 4 ∧
        (step p q).proc.regs = p.regs) ∧
    (∀ s, getU32 p.regs 2 = 5 → q = [.inputMsg s] →
      parseSIntDec (2 ^ 31) s.toList = none →
      (step p q).err = some .intParseErr ∧ (step p q).proc.pc = p.pc ∧
        (step p q).proc.regs = p.regs) ∧
    (∀ s v, getU32 p.regs 2 = 5 → q = [.inputMsg s] →
      parseSIntDec (2 ^ 31) s.toList = some v →
      (step p q).err = none ∧ (step p q).proc.pc = p.pc + 4 ∧
        (step p q).proc.regs = setI32 p.regs 2 v) := by
  have hlk : lookupOpcodeFunc 0 0x0c =
      some ⟨"syscall", .r, [.noArg, .noArg, .noArg], 0x00, 0x0c⟩ := by decide
  have hs : step p q = syscallStep { p with mem := (memReadU32 (setPos p.mem p.pc)).2 } q := by
    simp only [step]
    rw [hfetch, hop, hfn, hlk]
    simp
  refine ⟨?_, ?_, ?_, ?_, ?_⟩
  · intro v0 hv0 h1 h4 h5
    rw [hs]
    simp only [syscallStep]
    rw [hv0, if_neg h1, if_neg h4, if_neg h5]
    exact ⟨rfl, rfl, rfl⟩
  · intro hv0
    rw [hs]
    simp only [syscallStep]
    rw [hv0, if_pos (show (1 : Nat) = 1 from rfl)]
    exact ⟨rfl, rfl, rfl⟩
  · intro bytes hv0 hstr
    rw [hs]
    simp only [syscallStep]
    rw [hv0, if_neg (show ¬(4 : Nat) = 1 by decide), if_pos (show (4 : Nat) = 4 from rfl)]
    rw [hstr]
    exact ⟨rfl, rfl, rfl⟩
  · intro s hv0 hq hparse
    subst hq
    rw [hs]
    simp only [syscallStep]
    rw [hv0, if_neg (show ¬(5 : Nat) = 1 by decide), if_neg (show ¬(5 : Nat) = 4 by decide),
      if_pos (show (5 : Nat) = 5 from rfl)]
    simp only [ioRecv]
    rw [hparse]
    exact ⟨rfl, rfl, rfl⟩
  · intro s v hv0 hq hparse
    subst hq
    rw [hs]
    simp only [syscallStep]
    rw [hv0, if_neg (show ¬(5 : Nat) = 1 by decide), if_neg (show ¬(5 : Nat) = 4 by decide),
      if_pos (show (5 : Nat) = 5 from rfl)]
    simp only [ioRecv]
    rw [hparse]
    exact ⟨rfl, rfl, rfl⟩

/-- Counterexample to C5 as frozen: a syscall-5 step fed the malformed
line `abc` surfaces the parse error but leaves PC at its old value — PC is
not old PC + 4. -/
theorem c5_counterexample :
    (step { procNew with
            mem := memWriteU32 (setPos memNew ADDR_TEXT) 0x0000000c
            regs := setU32 regsDefault 2 5 } [.inputMsg "abc"]).err =
      some .intParseErr ∧
    (step { procNew with
            mem := memWriteU32 (setPos memNew ADDR_TEXT) 0x0000000c
            regs := setU32 regsDefault 2 5 } [.inputMsg "abc"]).proc.pc = ADDR_TEXT ∧
    ADDR_TEXT ≠ ADDR_TEXT + 4 := by decide

/-- Witness for C5: a concrete syscall-5 step with malformed input keeps
PC at its old value, and a concrete print-int syscall (v0 = 1) advances
PC by 4. -/
theorem c5_syscall_pc_witness :
    (step { procNew with
            mem := memWriteU32 (setPos memNew ADDR_TEXT) 0x0000000c
            regs := setU32 regsDefault 2 5 } [.inputMsg "abc"]).err =
      some ExecErrorM.intParseErr ∧
    (step { procNew with
            mem := memWriteU32 (setPos memNew ADDR_TEXT) 0x0000000c
            regs := setU32 regsDefault 2 5 } [.inputMsg "abc"]).proc.pc = 0x400000 ∧
    (step { procNew with
            mem := memWriteU32 (setPos memNew ADDR_TEXT) 0x0000000c
            regs := setU32 regsDefault 2 1 } []).err = none ∧
    (step { procNew with
            mem := memWriteU32 (setPos memNew ADDR_TEXT) 0x0000000c
            regs := setU32 regsDefault 2 1 } []).proc.pc = 0x400004 := by
  have h := c5_syscall_pc
    { procNew with
      mem := memWriteU32 (setPos memNew ADDR_TEXT) 0x0000000c
      regs := setU32 regsDefault 2 5 } [.inputMsg "abc"] 0x0000000c
    (by decide) (by decide) (by decide)
  have hb := h.2.2.2.1 "abc" (by decide) rfl (by decide)
  have h1 := c5_syscall_pc
    { procNew with
      mem := memWriteU32 (setPos memNew ADDR_TEXT) 0x0000000c
      regs := setU32 regsDefault 2 1 } [] 0x0000000c
    (by decide) (by decide) (by decide)
  have hc := h1.2.1 (by decide)
  refine ⟨hb.1, ?_, hc.1, ?_⟩
  · rw [hb.2.1]
    decide
  · rw [hc.2.1]
    decide

/-- Claim C1 (code evaluated at the failing input): backpatching the
backward branch in `.text / back: / nop / beq $t0, $t1, back` ORs the full
sign-extended 32-bit offset into the word, producing `0xFFFFFFFE`: the
opcode field reads 63 instead of beq's 4, so the claim's "low 16 bits
only, opcode and register fields intact" fails, and executing two steps
(with `$t0 = $t1 = 0`, so a correct beq would jump back) leaves PC at the
branch address instead of the label's address. -/
theorem c1_backward_branch_clobbered :
    ((loadProgram ".text\nback:\nnop\nbeq $t0, $t1, back").map
      (fun p => fetchWord p.mem (ADDR_TEXT + 4))) = some 0xFFFFFFFE ∧
    (0xFFFFFFFE : Nat) >>> 26 = 63 ∧ (63 : Nat) ≠ 0x04 ∧
    ((loadProgram ".text\nback:\nnop\nbeq $t0, $t1, back").map
      (fun p => (stepN 2 p).pc)) = some (ADDR_TEXT + 4) ∧
    ADDR_TEXT + 4 ≠ ADDR_TEXT := by decide

/-- Claim C2 (code evaluated at the failing input): the `subu` table row
carries `(opcode 0x23, func 0x00)`, the same decode key as `lw`, and the
decode-time map resolves that key to `lw` — so an assembled `subu`
dispatches to `lw`'s operation, not `subu`'s.  Every other instruction's
`(opcode, func)` key resolves to itself. -/
theorem c2_subu_decodes_as_lw :
    (INSTRUCTIONS.filter (fun i => i.mnemonic == "subu")).map Inst.opcode = [0x23] ∧
    (INSTRUCTIONS.filter (fun i => i.mnemonic == "subu")).map Inst.func = [0x00] ∧
    (lookupOpcodeFunc 0x23 0x00).map Inst.mnemonic = some "lw" ∧
    ((INSTRUCTIONS.filter (fun i => i.mnemonic != "subu")).all
      (fun i => lookupOpcodeFunc i.opcode i.func == some i)) = true := by decide

/-- Claim C3 (code evaluated at the failing input): after a reset and a
single byte `0xAB` written at `0x10000000`, only the one intersecting
block is allocated (the read allocates nothing), but `read_view` of 256
bytes from `0x10000000 - 128` returns an all-zero buffer: the unallocated
first block zero-fills `min(len, BLOCK_SIZE) = 256` bytes instead of its
own 128-byte portion, so the written byte never reaches buffer offset
128. -/
theorem c3_read_view_drops_written_byte :
    readViewBuf (memWrite (setPos (memReset memNew) 0x10000000) [0xAB]) 0x0FFFFF80
      (List.replicate 256 0x5A) = List.replicate 256 0 ∧
    (readViewBuf (memWrite (setPos (memReset memNew) 0x10000000) [0xAB]) 0x0FFFFF80
      (List.replicate 256 0x5A)).getD 128 0 = 0 ∧
    (0 : Nat) ≠ 0xAB ∧
    (memWrite (setPos (memReset memNew) 0x10000000) [0xAB]).tree.map Prod.fst =
      [0x10000000] := by decide

/-- Claim C4 (code evaluated at the failing input): `li $t0, 42` cannot be
assembled — the parser's argument `match` has no arm for the `Word` slot
(the source match over `InstArg` is non-exhaustive), and even a directly
constructed `li` pseudo node makes the loader's expansion hit
`unimplemented!`, leaving `loaded` false — so it never behaves like
`addiu $t0, $zero, 42`. -/
theorem c4_li_load_unimplemented :
    parseProgram "li $t0, 42" = .error .wordArgUnsupported ∧
    (load procNew [⟨.instPseudo ⟨"li", [.rt, .word, .noArg]⟩ 0 8 0 (.half 42), 0⟩]).1 =
      .error .panicUnimplemented ∧
    (load procNew [⟨.instPseudo ⟨"li", [.rt, .word, .noArg]⟩ 0 8 0 (.half 42), 0⟩]).2.loaded =
      false := by decide

/-- Claim C6 (code evaluated at the failing input): a `Load` whose source
fails to parse logs exactly one message and then the worker loop returns —
the thread exits, the following corrected `Load` (which succeeds when sent
alone) is never dequeued and `loaded` stays false; by contrast a
load-time failure (unresolved label) logs one message, leaves `loaded`
false, and the worker keeps processing subsequent commands. -/
theorem c6_worker_dies_on_parse_error :
    (workerRun [.loadMsg "frobnicate", .loadMsg ".text\naddi $t0, $zero, 5"]).1 =
      [.syncMsg ADDR_TEXT false,
        .logMsg (.parseErrorLog (.unknownInstruction "frobnicate"))] ∧
    (workerRun [.loadMsg "frobnicate", .loadMsg ".text\naddi $t0, $zero, 5"]).2.loaded =
      false ∧
    (workerRun [.loadMsg ".text\naddi $t0, $zero, 5"]).2.loaded = true ∧
    (workerRun [.loadMsg "j end", .resetMsg]).1 =
      [.syncMsg ADDR_TEXT false, .logMsg (.loadErrorLog (.unknownLabel "end")),
        .syncMsg ADDR_TEXT false] ∧
    (workerRun [.loadMsg "j end"]).2.loaded = false := by decide

/-- Counterexample to C7 as frozen: a hex immediate in a signed-immediate
slot does not parse — `addi $t0, $zero, 0x10` fails with the integer-parse
error instead of yielding 16. -/
theorem c7_counterexample :
    parseProgram "addi $t0, $zero, 0x10" = .error .parseIntError := by decide

/-- Claim C7 (amended): `0x`-prefixed immediates parse as hexadecimal and
unprefixed ones as decimal for the shift-amount, unsigned-immediate and
address slots (`parse_u8`/`parse_u16`/`parse_u32`), but the
signed-immediate slot uses plain `str::parse::<i16>` with no hex
handling, so `addi $t0, $zero, 0x10` fails with an integer-parse error
while the decimal `16` (and hex in the other slot kinds) succeeds. -/
theorem c7_hex_immediates :
    parseProgram "addi $t0, $zero, 0x10" = .error .parseIntError ∧
    parseProgram "addi $t0, $zero, 16" =
      .ok [⟨.instI ⟨"addi", .i, [.rt, .rs, .simm], 0x08, 0x00⟩ 0 8 (.half 16), 0⟩] ∧
    parseProgram "addiu $t0, $zero, 0x10" =
      .ok [⟨.instI ⟨"addiu", .i, [.rt, .rs, .uimm], 0x09, 0x00⟩ 0 8 (.half 16), 0⟩] ∧
    parseProgram "sll $t0, $t1, 0x2" =
      .ok [⟨.instR ⟨"sll", .r, [.rd, .rt, .shamt], 0x00, 0x00⟩ 0 9 8 2, 0⟩] ∧
    parseProgram "j 0x40" =
      .ok [⟨.instJ ⟨"j", .j, [.addr, .noArg, .noArg], 0x02, 0x00⟩ (.addrImm 0x40), 0⟩] := by
  decide

/-- Counterexample to C9 as frozen: assembling the bare program
`addi $t0, $zero, 5` (no `.text` directive) writes the word at address 0,
so after one step `$t0` is 0, not 5. -/
theorem c9_counterexample :
    ((loadProgram "addi $t0, $zero, 5").map (fun p => getU32 (stepN 1 p).regs 8)) =
      some 0 ∧
    some (0 : Nat) ≠ some 5 := by decide

/-- Claim C9 (amended): with the program placed in the text segment by a
`.text` directive, assembling `addi $t0, $zero, 5` and executing one step
yields `$t0 = 5` and `PC = text_base + 4`. -/
theorem c9_round_trip_with_text :
    ((loadProgram ".text\naddi $t0, $zero, 5").map
      (fun p => (getU32 (stepN 1 p).regs 8, (stepN 1 p).pc))) =
      some (5, ADDR_TEXT + 4) := by decide

end Mipsim
